import Mathlib

set_option maxRecDepth 8000

/-!
# Formal model of the sisl repository core

This file gives a shallow embedding, in Lean 4, of the parts of the sisl
repository that the specification talks about:

* `sisl/eigensystem.py`            — the `EigenSystem` container,
* `sisl/io/tbtrans/_cdf.py`        — `Eindex` / `kindex` nearest-point lookup,
* `sisl/io/tbtrans/se.py`          — the self-energy pivot tables,
* `sisl/io/siesta/siesta.py`       — the Hamiltonian NetCDF round trip,
* the MonkhorstPack k-grid (whose implementation is not among the source
  files; it is modelled from the specification, as marked below).

numpy arrays are modelled as Lean lists, complex entries as Gaussian
rationals (`CQ`), and floating-point reals as exact rationals; fallible
Python code returns `Option`/`Except`.
-/

/-- A complex number with rational parts: the exact model of one numpy
complex matrix entry. -/
structure CQ where
  re : ℚ
  im : ℚ
deriving DecidableEq, Repr

theorem CQ.ext_iff' (a b : CQ) : a = b ↔ a.re = b.re ∧ a.im = b.im := by
  cases a
  cases b
  simp

instance : Zero CQ := ⟨⟨0, 0⟩⟩

instance : Add CQ := ⟨fun a b => ⟨a.re + b.re, a.im + b.im⟩⟩

instance : Mul CQ := ⟨fun a b => ⟨a.re * b.re - a.im * b.im, a.re * b.im + a.im * b.re⟩⟩

/-- Multiplication of a complex entry by a real (rational) scalar. -/
instance : SMul ℚ CQ := ⟨fun q a => ⟨q * a.re, q * a.im⟩⟩

/-- `np.conjugate` on one entry. -/
def CQ.conj (a : CQ) : CQ := ⟨a.re, -a.im⟩

@[simp] theorem CQ.zero_re : (0 : CQ).re = 0 := rfl

@[simp] theorem CQ.zero_im : (0 : CQ).im = 0 := rfl

@[simp] theorem CQ.add_re (a b : CQ) : (a + b).re = a.re + b.re := rfl

@[simp] theorem CQ.add_im (a b : CQ) : (a + b).im = a.im + b.im := rfl

@[simp] theorem CQ.mul_re (a b : CQ) : (a * b).re = a.re * b.re - a.im * b.im := rfl

@[simp] theorem CQ.mul_im (a b : CQ) : (a * b).im = a.re * b.im + a.im * b.re := rfl

@[simp] theorem CQ.smul_re (q : ℚ) (a : CQ) : (q • a).re = q * a.re := rfl

@[simp] theorem CQ.smul_im (q : ℚ) (a : CQ) : (q • a).im = q * a.im := rfl

instance : AddCommMonoid CQ where
  add_assoc a b c := by
    simp [CQ.ext_iff']
    constructor <;> ring
  zero_add a := by
    simp [CQ.ext_iff']
  add_zero a := by
    simp [CQ.ext_iff']
  add_comm a b := by
    simp [CQ.ext_iff']
    constructor <;> ring
  nsmul := nsmulRec

/-!
## `sisl/eigensystem.py`

`EigenSystem` keeps eigenvalues `e` (a 1-d float array, modelled as
`List ℚ`), eigenvectors `v` (a 2-d array whose *rows* are the vectors,
modelled as `List (List CQ)`), a `parent` (not modelled) and an `info`
dictionary.  The `info` dict is a mutable Python object that several
`EigenSystem`s can hold a reference to; we model its object identity by
the natural number `infoId`: two `EigenSystem`s share the mutable `info`
dictionary exactly when their `infoId`s are equal.
-/

structure EigenSystem where
  e : List ℚ
  v : List (List CQ)
  infoId : ℕ
deriving DecidableEq, Repr

/-- `EigenSystem.__init__(e, v, parent, **info)`: `e` is raveled (already
1-d here), `v` is raveled to the flat list `vflat` and then reshaped by
`self.v.shape = (len(self), -1)`.  numpy's reshape `(n, -1)` fails unless
`0 < n` and `n ∣ len vflat`; on success row `i` is the slice
`[i*k, (i+1)*k)` with `k = len vflat / n`.  The keyword arguments build a
fresh `info` dict, whose (fresh) object id is `freshId`. -/
def EigenSystem.init (e : List ℚ) (vflat : List CQ) (freshId : ℕ) : Option EigenSystem :=
  if 0 < e.length ∧ e.length ∣ vflat.length then
    some ⟨e, (List.range e.length).map
        (fun i => (vflat.drop (i * (vflat.length / e.length))).take (vflat.length / e.length)),
      freshId⟩
  else none

/-- `len(es)`: the number of eigenvalues. -/
def EigenSystem.len (es : EigenSystem) : ℕ := es.e.length

/-- `EigenSystem.sub(idx)`: builds `self.__class__(self.e[idx], self.v[idx, :], parent)`
and then rebinds `sub.info = self.info` — so the result's `info` dict is the
*same object* as the original's (`infoId` is propagated), while the fancy-indexed
`e`/`v` arrays are fresh copies.  numpy fancy indexing raises `IndexError` for an
out-of-range index, and `__init__`'s reshape fails for an empty index list. -/
def EigenSystem.sub (es : EigenSystem) (idx : List ℕ) : Option EigenSystem :=
  if idx ≠ [] ∧ ∀ i ∈ idx, i < es.e.length then
    some ⟨idx.map (fun i => es.e.getD i 0), idx.map (fun i => es.v.getD i []), es.infoId⟩
  else none

/-- `EigenSystem.__getitem__(key)`: performs exactly the construction of `sub`
(`self.__class__(self.e[key], self.v[key, :], self.parent)` followed by
`es.info = self.info`). -/
def EigenSystem.getitem (es : EigenSystem) (idx : List ℕ) : Option EigenSystem :=
  es.sub idx

/-- `EigenSystem.copy()`: copies the `e` and `v` arrays (value-equal fresh
arrays) and rebinds `copy.info = self.info` (shared `info` dict). -/
def EigenSystem.copy (es : EigenSystem) : EigenSystem := ⟨es.e, es.v, es.infoId⟩

/-- `EigenSystem.iter()` (and `__iter__`): yields `self.sub(i)` for
`i = 0, …, len(self)-1`. -/
def EigenSystem.elems (es : EigenSystem) : List EigenSystem :=
  (List.range es.e.length).filterMap (fun i => es.sub [i])

/-- `_outer(e, v) = np.outer(v * e, np.conjugate(v))`: the matrix with entry
`(i, j)` equal to `(v i * e) * conj (v j)`. -/
def _outer (e : ℚ) (v : List CQ) : List (List CQ) :=
  v.map (fun vi => v.map (fun vj => (e • vi) * vj.conj))

/-- numpy `+=` on two equally-shaped 2-d arrays: entrywise addition. -/
def matAdd (A B : List (List CQ)) : List (List CQ) :=
  List.zipWith (fun r s => List.zipWith (fun a b => a + b) r s) A B

/-- The accumulation loop of `EigenSystem.outer`: `m = _outer(e[i0], v[i0])`
followed by `m += _outer(e[i], v[i])` over the remaining selected indices. -/
def outerSum (es : EigenSystem) : List ℕ → List (List CQ)
  | [] => []
  | i0 :: rest =>
    rest.foldl (fun m i => matAdd m (_outer (es.e.getD i 0) (es.v.getD i [])))
      (_outer (es.e.getD i0 0) (es.v.getD i0 []))

/-- `EigenSystem.outer(idx)`: for `idx = None` sums `_outer` over indices
`0, …, len-1` (an `IndexError` on an empty system, since it starts from
`self.e[0]`); for an index array it sums over the given indices (an
`IndexError` on an empty or out-of-range selection, since it starts from
`self.e[idx[0]]`). -/
def EigenSystem.outer (es : EigenSystem) (idx : Option (List ℕ)) : Option (List (List CQ)) :=
  match idx with
  | none =>
    if 0 < es.e.length then some (outerSum es (List.range es.e.length)) else none
  | some l =>
    if l ≠ [] ∧ ∀ i ∈ l, i < es.e.length then some (outerSum es l) else none

/-- Matrix entry `(p, q)` of a list-of-rows matrix. -/
def entry (M : List (List CQ)) (p q : ℕ) : CQ := (M.getD p []).getD q 0

/-- Well-formedness of an `EigenSystem` against an eigenvector length `d`:
`v` is a 2-d array of shape `(len e, d)`. -/
def ESWF (d : ℕ) (es : EigenSystem) : Prop :=
  es.v.length = es.e.length ∧ ∀ r ∈ es.v, r.length = d

instance (d : ℕ) (es : EigenSystem) : Decidable (ESWF d es) := by
  unfold ESWF
  infer_instance

/-! ### Shape and entry lemmas for `outer` -/

/-- `M` is a `d × d` matrix. -/
def isMat (d : ℕ) (M : List (List CQ)) : Prop :=
  M.length = d ∧ ∀ r ∈ M, r.length = d


theorem getD_map' {α β} (f : α → β) (l : List α) (p : ℕ) (da : α) (db : β)
    (h : p < l.length) : (l.map f).getD p db = f (l.getD p da) := by
  rw [List.getD_eq_getElem?_getD, List.getElem?_map, List.getElem?_eq_getElem h,
    List.getD_eq_getElem?_getD, List.getElem?_eq_getElem h]
  rfl

theorem getD_zipWith' {α β γ} (f : α → β → γ) (A : List α) (B : List β) (p : ℕ)
    (da : α) (db : β) (dc : γ) (hA : p < A.length) (hB : p < B.length) :
    (List.zipWith f A B).getD p dc = f (A.getD p da) (B.getD p db) := by
  rw [List.getD_eq_getElem?_getD, List.getElem?_zipWith, List.getElem?_eq_getElem hA,
    List.getElem?_eq_getElem hB, List.getD_eq_getElem?_getD, List.getD_eq_getElem?_getD,
    List.getElem?_eq_getElem hA, List.getElem?_eq_getElem hB]
  rfl

theorem getD_mem {α} (l : List α) (p : ℕ) (d : α) (h : p < l.length) :
    l.getD p d ∈ l := by
  rw [List.getD_eq_getElem?_getD, List.getElem?_eq_getElem h]
  exact List.getElem_mem h

theorem outer_isMat (e : ℚ) (v : List CQ) : isMat v.length (_outer e v) := by
  constructor
  · simp [_outer]
  · intro r hr
    simp only [_outer, List.mem_map] at hr
    obtain ⟨vi, _, rfl⟩ := hr
    simp

theorem entry_outer (e : ℚ) (v : List CQ) (p q : ℕ)
    (hp : p < v.length) (hq : q < v.length) :
    entry (_outer e v) p q = (e • v.getD p 0) * (v.getD q 0).conj := by
  unfold entry _outer
  rw [getD_map' _ v p 0 [] hp, getD_map' _ v q 0 0 hq]

theorem matAdd_isMat {d : ℕ} {A B : List (List CQ)} (hA : isMat d A) (hB : isMat d B) :
    isMat d (matAdd A B) := by
  refine ⟨by simp [matAdd, List.length_zipWith, hA.1, hB.1], ?_⟩
  intro r hr
  rw [List.mem_iff_getElem] at hr
  obtain ⟨i, hi, rfl⟩ := hr
  have hl : (matAdd A B).length = d := by
    simp [matAdd, List.length_zipWith, hA.1, hB.1]
  have hiA : i < A.length := by
    rw [hA.1]
    omega
  have hiB : i < B.length := by
    rw [hB.1]
    omega
  have hrow : (matAdd A B)[i] = List.zipWith (fun a b => a + b) A[i] B[i] := by
    simp [matAdd]
  rw [hrow, List.length_zipWith, hA.2 _ (List.getElem_mem hiA), hB.2 _ (List.getElem_mem hiB)]
  omega

theorem entry_matAdd {d : ℕ} {A B : List (List CQ)} (hA : isMat d A) (hB : isMat d B)
    (p q : ℕ) (hp : p < d) :
    entry (matAdd A B) p q = entry A p q + entry B p q := by
  have hpA : p < A.length := by
    rw [hA.1]
    exact hp
  have hpB : p < B.length := by
    rw [hB.1]
    exact hp
  have hrA : (A.getD p []).length = d := hA.2 _ (getD_mem A p [] hpA)
  have hrB : (B.getD p []).length = d := hB.2 _ (getD_mem B p [] hpB)
  unfold entry matAdd
  rw [getD_zipWith' _ A B p [] [] [] hpA hpB]
  by_cases hq : q < d
  · rw [getD_zipWith' _ _ _ q 0 0 0 (by omega) (by omega)]
  · rw [List.getD_eq_default _ _ (by rw [List.length_zipWith]; omega),
      List.getD_eq_default _ _ (by omega), List.getD_eq_default _ _ (by omega)]
    simp [CQ.ext_iff']

/-- The `(p, q)` matrix entry contributed by the eigenpair `i`:
`e_i · v_i[p] · conj (v_i[q])`. -/
def outerTerm (es : EigenSystem) (p q i : ℕ) : CQ :=
  (es.e.getD i 0 • (es.v.getD i []).getD p 0) * ((es.v.getD i []).getD q 0).conj

theorem foldl_outer_isMat (es : EigenSystem) (d : ℕ) (l : List ℕ) (m : List (List CQ))
    (hm : isMat d m) (hl : ∀ i ∈ l, (es.v.getD i []).length = d) :
    isMat d (l.foldl (fun m i => matAdd m (_outer (es.e.getD i 0) (es.v.getD i []))) m) := by
  induction l generalizing m with
  | nil => exact hm
  | cons i t ih =>
    simp only [List.foldl_cons]
    apply ih
    · have h := outer_isMat (es.e.getD i 0) (es.v.getD i [])
      rw [hl i (List.mem_cons_self i t)] at h
      exact matAdd_isMat hm h
    · intro j hj
      exact hl j (List.mem_cons_of_mem i hj)

theorem foldl_outer_entry (es : EigenSystem) (d : ℕ) (l : List ℕ) (m : List (List CQ))
    (hm : isMat d m) (hl : ∀ i ∈ l, (es.v.getD i []).length = d)
    (p q : ℕ) (hp : p < d) (hq : q < d) :
    entry (l.foldl (fun m i => matAdd m (_outer (es.e.getD i 0) (es.v.getD i []))) m) p q
      = entry m p q + (l.map (outerTerm es p q)).sum := by
  induction l generalizing m with
  | nil => simp
  | cons i t ih =>
    have hrow : (es.v.getD i []).length = d := hl i (List.mem_cons_self i t)
    have h := outer_isMat (es.e.getD i 0) (es.v.getD i [])
    rw [hrow] at h
    rw [List.foldl_cons, ih _ (matAdd_isMat hm h) (fun j hj => hl j (List.mem_cons_of_mem i hj)),
      entry_matAdd hm h p q hp,
      entry_outer (es.e.getD i 0) (es.v.getD i []) p q (by omega) (by omega)]
    simp only [List.map_cons, List.sum_cons, outerTerm]
    rw [add_assoc]

theorem outerSum_spec (es : EigenSystem) (d : ℕ) (hwf : ESWF d es) (sel : List ℕ)
    (hne : sel ≠ []) (hb : ∀ i ∈ sel, i < es.e.length) :
    isMat d (outerSum es sel) ∧ ∀ p q, p < d → q < d →
      entry (outerSum es sel) p q = (sel.map (outerTerm es p q)).sum := by
  match sel with
  | [] => exact absurd rfl hne
  | i0 :: rest =>
    have hrows : ∀ i ∈ i0 :: rest, (es.v.getD i []).length = d := by
      intro i hi
      exact hwf.2 _ (getD_mem _ _ _ (by rw [hwf.1]; exact hb i hi))
    have h0 : (es.v.getD i0 []).length = d := hrows i0 (List.mem_cons_self i0 rest)
    have hm : isMat d (_outer (es.e.getD i0 0) (es.v.getD i0 [])) := by
      have h := outer_isMat (es.e.getD i0 0) (es.v.getD i0 [])
      rwa [h0] at h
    have hrest : ∀ j ∈ rest, (es.v.getD j []).length = d :=
      fun j hj => hrows j (List.mem_cons_of_mem i0 hj)
    constructor
    · exact foldl_outer_isMat es d rest _ hm hrest
    · intro p q hp hq
      show entry (rest.foldl _ _) p q = _
      rw [foldl_outer_entry es d rest _ hm hrest p q hp hq,
        entry_outer (es.e.getD i0 0) (es.v.getD i0 []) p q (by omega) (by omega)]
      simp only [List.map_cons, List.sum_cons, outerTerm]

/-- **C3.** For every well-formed `EigenSystem` and every admissible index
selection (all contained states when the selection is `none`), `outer`
returns the `size × size` matrix whose `(p, q)` entry is the sum over the
selected indices `i` of `e_i · v_i[p] · conj (v_i[q])`; and on the concrete
diagonal eigen-decomposition with identity eigenvectors and eigenvalues
`[1, 2]` it returns exactly `diag (1, 2)`. -/
theorem eigensystem_outer_formula :
    (∀ (d : ℕ) (es : EigenSystem) (sel : Option (List ℕ)) (M : List (List CQ)),
      ESWF d es → es.outer sel = some M →
      isMat d M ∧ ∀ p q, p < d → q < d →
        entry M p q = ((sel.getD (List.range es.e.length)).map (outerTerm es p q)).sum) ∧
    EigenSystem.outer ⟨[1, 2], [[⟨1, 0⟩, ⟨0, 0⟩], [⟨0, 0⟩, ⟨1, 0⟩]], 0⟩ none
      = some [[⟨1, 0⟩, ⟨0, 0⟩], [⟨0, 0⟩, ⟨2, 0⟩]] := by
  constructor
  · intro d es sel M hwf hM
    match sel with
    | none =>
      simp only [EigenSystem.outer] at hM
      split at hM
      · obtain rfl : outerSum es (List.range es.e.length) = M := by
          injection hM
        have hne : List.range es.e.length ≠ [] := by
          simp only [ne_eq, List.range_eq_nil]
          omega
        have hb : ∀ i ∈ List.range es.e.length, i < es.e.length := by
          intro i hi
          exact List.mem_range.mp hi
        simpa using outerSum_spec es d hwf _ hne hb
      · exact absurd hM (by simp)
    | some l =>
      simp only [EigenSystem.outer] at hM
      split at hM
      case isTrue hc =>
        obtain rfl : outerSum es l = M := by
          injection hM
        simpa using outerSum_spec es d hwf l hc.1 hc.2
      case isFalse => exact absurd hM (by simp)
  · norm_num [EigenSystem.outer, outerSum, _outer, matAdd, CQ.ext_iff', CQ.conj,
      List.range_succ]

theorem eigensystem_outer_formula_witness :
    ESWF 2 ⟨[1, 2], [[⟨1, 0⟩, ⟨0, 0⟩], [⟨0, 0⟩, ⟨1, 0⟩]], 0⟩ ∧
    isMat 2 [[⟨1, 0⟩, ⟨0, 0⟩], [⟨0, 0⟩, ⟨2, 0⟩]] ∧
    entry [[⟨1, 0⟩, ⟨0, 0⟩], [⟨0, 0⟩, ⟨2, 0⟩]] 1 1 =
      ((List.range 2).map (outerTerm ⟨[1, 2], [[⟨1, 0⟩, ⟨0, 0⟩], [⟨0, 0⟩, ⟨1, 0⟩]], 0⟩ 1 1)).sum := by
  refine ⟨by decide, ?_, ?_⟩
  · exact (eigensystem_outer_formula.1 2 _ none _ (by decide) eigensystem_outer_formula.2).1
  · have h := (eigensystem_outer_formula.1 2 _ none _ (by decide)
      eigensystem_outer_formula.2).2 1 1 (by omega) (by omega)
    simpa using h

/-!
### Claim C2: what `sub` / `__getitem__` return and share

The statement of the claim, formalized: the sub-system holds exactly the
selected eigenvalues/eigenvectors, in the order given, and shares **no**
mutable state with the original — in particular not the mutable `info`
dictionary (distinct object ids).
-/

/-- Claim C2 as stated, at one system and one index list. -/
def C2Statement (es : EigenSystem) (idx : List ℕ) : Prop :=
  ∀ es', es.sub idx = some es' →
    es'.e = idx.map (fun i => es.e.getD i 0) ∧
    es'.v = idx.map (fun i => es.v.getD i []) ∧
    es'.infoId ≠ es.infoId

/-- **C2 (counterexample).** `sub` ends with `sub.info = self.info`, so the
returned system holds a reference to the *same* mutable `info` dictionary as
the original: at this concrete input the "shares no mutable state" part of
the claim is false. -/
theorem eigensystem_sub_shares_info_dict :
    ¬ C2Statement ⟨[1], [[⟨1, 0⟩]], 7⟩ [0] := by
  intro h
  have h1 : (⟨[1], [[⟨1, 0⟩]], 7⟩ : EigenSystem).sub [0]
      = some ⟨[1], [[⟨1, 0⟩]], 7⟩ := by decide
  exact (h _ h1).2.2 rfl

/-- **C2 (amended).** For every `EigenSystem` and every in-range, non-empty
index sequence, `sub` (and the identical `__getitem__`) returns a new
`EigenSystem` whose eigenvalues and eigenvectors are fresh copies of those of
the original at the given indices in the given order (so mutating the
returned arrays cannot affect the original, and the original is left
unchanged — `sub` reads but never writes its receiver), while the `info`
dictionary (and the `parent` reference) are shared with the original. -/
theorem eigensystem_sub_getitem_select (es : EigenSystem) (idx : List ℕ) (es' : EigenSystem)
    (h : es.sub idx = some es') :
    es'.e = idx.map (fun i => es.e.getD i 0) ∧
    es'.v = idx.map (fun i => es.v.getD i []) ∧
    es'.infoId = es.infoId ∧
    es.getitem idx = some es' := by
  unfold EigenSystem.sub at h
  split at h
  next hc =>
    cases h
    refine ⟨rfl, rfl, rfl, ?_⟩
    unfold EigenSystem.getitem EigenSystem.sub
    rw [if_pos hc]
  next => cases h

theorem eigensystem_sub_getitem_select_witness :
    (⟨[1, 2], [[⟨1, 0⟩], [⟨2, 0⟩]], 3⟩ : EigenSystem).sub [1, 0]
      = some ⟨[2, 1], [[⟨2, 0⟩], [⟨1, 0⟩]], 3⟩ ∧
    (⟨[2, 1], [[⟨2, 0⟩], [⟨1, 0⟩]], 3⟩ : EigenSystem).e = [2, 1] ∧
    (⟨[2, 1], [[⟨2, 0⟩], [⟨1, 0⟩]], 3⟩ : EigenSystem).infoId = 3 := by
  have hs : (⟨[1, 2], [[⟨1, 0⟩], [⟨2, 0⟩]], 3⟩ : EigenSystem).sub [1, 0]
      = some ⟨[2, 1], [[⟨2, 0⟩], [⟨1, 0⟩]], 3⟩ := by decide
  have h := eigensystem_sub_getitem_select ⟨[1, 2], [[⟨1, 0⟩], [⟨2, 0⟩]], 3⟩ [1, 0] _ hs
  exact ⟨hs, by simp [h.1], h.2.2.1⟩

/-! ### Claim C7 helpers: the shape invariant under each operation -/

theorem init_wf (e : List ℚ) (vflat : List CQ) (fid : ℕ) (es : EigenSystem)
    (h : EigenSystem.init e vflat fid = some es) :
    ESWF (vflat.length / e.length) es := by
  unfold EigenSystem.init at h
  split at h
  next hc =>
    cases h
    obtain ⟨hn, k, hk⟩ := hc
    constructor
    · simp
    · intro r hr
      simp only [List.mem_map, List.mem_range] at hr
      obtain ⟨i, hi, rfl⟩ := hr
      have hq : vflat.length / e.length = k := by
        rw [hk]
        exact Nat.mul_div_cancel_left k hn
      rw [hq]
      have h1 : (i + 1) * k ≤ e.length * k := Nat.mul_le_mul_right k (by omega)
      have h2 : vflat.length = e.length * k := hk
      simp only [List.length_take, List.length_drop]
      have : i * k + k ≤ vflat.length := by
        rw [h2]
        calc i * k + k = (i + 1) * k := by ring
        _ ≤ e.length * k := h1
      omega
  next => cases h

theorem copy_wf (d : ℕ) (es : EigenSystem) (h : ESWF d es) : ESWF d es.copy := h

theorem sub_wf (d : ℕ) (es : EigenSystem) (idx : List ℕ) (es' : EigenSystem)
    (hwf : ESWF d es) (h : es.sub idx = some es') : ESWF d es' := by
  unfold EigenSystem.sub at h
  split at h
  next hc =>
    cases h
    constructor
    · simp
    · intro r hr
      simp only [List.mem_map] at hr
      obtain ⟨i, hi, rfl⟩ := hr
      exact hwf.2 _ (getD_mem _ _ _ (by rw [hwf.1]; exact hc.2 i hi))
  next => cases h

theorem elems_wf (d : ℕ) (es : EigenSystem) (es' : EigenSystem)
    (hwf : ESWF d es) (h : es' ∈ es.elems) : ESWF d es' := by
  unfold EigenSystem.elems at h
  rw [List.mem_filterMap] at h
  obtain ⟨i, _, hsub⟩ := h
  exact sub_wf d es [i] es' hwf hsub

/-!
## `sisl/io/tbtrans/_cdf.py` — `Eindex` and `kindex`

The file state is reduced to what the two lookups read: the stored energy
grid `self.E` (already converted to eV) and the stored k-points `self.k`
(reduced coordinates).  The further fields are the pivot tables used by
`sisl/io/tbtrans/se.py` below: `pivot1` is the 1-based `pivot` variable of
the file, `no` the number of orbitals (`no_u`), and `elecPivot` the
1-based per-electrode pivot variables.
-/

structure TBTFile where
  E : List ℚ
  k : List (ℚ × ℚ × ℚ)
  pivot1 : List ℕ
  no : ℕ
  elecPivot : List (List ℕ)
deriving DecidableEq, Repr

/-- `np.argmin` on a 1-d float array: the index of the first occurrence of
the minimal value (numpy raises on an empty array; this model returns `0`
there, and every theorem below assumes a non-empty array). -/
def argmin : List ℚ → ℕ
  | [] => 0
  | [_] => 0
  | x :: y :: t =>
    if x ≤ (y :: t).getD (argmin (y :: t)) 0 then 0 else argmin (y :: t) + 1

theorem argmin_spec (l : List ℚ) (hne : l ≠ []) :
    argmin l < l.length ∧ ∀ j, j < l.length → l.getD (argmin l) 0 ≤ l.getD j 0 := by
  induction l with
  | nil => exact absurd rfl hne
  | cons x rest ih =>
    cases rest with
    | nil =>
      refine ⟨by simp [argmin], ?_⟩
      intro j hj
      simp only [List.length_singleton] at hj
      interval_cases j
      simp [argmin]
    | cons y t =>
      obtain ⟨ihb, ihle⟩ := ih (by simp)
      by_cases hc : x ≤ (y :: t).getD (argmin (y :: t)) 0
      · have he : argmin (x :: y :: t) = 0 := by
          simp only [argmin]
          rw [if_pos hc]
        rw [he]
        refine ⟨by simp, ?_⟩
        intro j hj
        cases j with
        | zero => simp
        | succ n =>
          simp only [List.getD_cons_zero, List.getD_cons_succ]
          exact le_trans hc (ihle n (by simpa using hj))
      · have he : argmin (x :: y :: t) = argmin (y :: t) + 1 := by
          simp only [argmin]
          rw [if_neg hc]
        rw [he]
        refine ⟨by simpa using ihb, ?_⟩
        intro j hj
        cases j with
        | zero =>
          simp only [List.getD_cons_zero, List.getD_cons_succ]
          exact le_of_lt (lt_of_not_le hc)
        | succ n =>
          simp only [List.getD_cons_succ]
          exact ihle n (by simpa using hj)

/-- `Eindex(E)` (`_ncSileTBtrans.Eindex`): an `int` query is returned
unchanged; otherwise the index minimising `|self.E - E|` is found with
`argmin`, and a `UserWarning` is emitted exactly when the energy found
differs from the query by more than `1e-3` eV.  The returned pair is
(index, warning emitted). -/
def EindexIdx (f : TBTFile) (q : ℚ) : ℕ :=
  argmin (f.E.map (fun x => |x - q|))

def Eindex (f : TBTFile) : ℤ ⊕ ℚ → ℤ × Bool
  | Sum.inl n => (n, false)
  | Sum.inr q =>
    ((EindexIdx f q : ℤ), decide (1/1000 < |f.E.getD (EindexIdx f q) 0 - q|))

/-- numpy `np.allclose(ret_k, k, atol=0.0001)` componentwise on 3-vectors,
with numpy's **default** `rtol = 1e-5`: every component satisfies
`|a - b| ≤ atol + rtol·|b|`. -/
def npAllclose (a b : ℚ × ℚ × ℚ) : Prop :=
  |a.1 - b.1| ≤ 1/10000 + |b.1| / 100000 ∧
  |a.2.1 - b.2.1| ≤ 1/10000 + |b.2.1| / 100000 ∧
  |a.2.2 - b.2.2| ≤ 1/10000 + |b.2.2| / 100000

instance (a b : ℚ × ℚ × ℚ) : Decidable (npAllclose a b) := by
  unfold npAllclose
  infer_instance

/-- The L1 distance `np.sum(np.abs(self.k - k), axis=1)` row of `kindex`. -/
def l1dist (a b : ℚ × ℚ × ℚ) : ℚ := |a.1 - b.1| + |a.2.1 - b.2.1| + |a.2.2 - b.2.2|

/-- `kindex(k)` (`_ncSileTBtrans.kindex`): the index of the stored k-point
with minimal L1 distance to the query is found with `argmin`, and a
`UserWarning` is emitted exactly when `np.allclose(ret_k, k, atol=0.0001)`
fails.  The returned pair is (index, warning emitted). -/
def kindexIdx (f : TBTFile) (q : ℚ × ℚ × ℚ) : ℕ :=
  argmin (f.k.map (fun x => l1dist x q))

def kindex (f : TBTFile) (q : ℚ × ℚ × ℚ) : ℕ × Bool :=
  (kindexIdx f q, ! decide (npAllclose (f.k.getD (kindexIdx f q) (0, 0, 0)) q))

/-- The k-point tolerance rule exactly as claim C4 words it: within `1e-4`
in every component. -/
def withinKTol (a b : ℚ × ℚ × ℚ) : Prop :=
  |a.1 - b.1| ≤ 1/10000 ∧ |a.2.1 - b.2.1| ≤ 1/10000 ∧ |a.2.2 - b.2.2| ≤ 1/10000

/-- Claim C4's warning rule for `kindex`, at one file and one query: a
warning is emitted iff the returned k-point is *not* within `1e-4` of the
query in every component. -/
def C4KStatement (f : TBTFile) (q : ℚ × ℚ × ℚ) : Prop :=
  (kindex f q).2 = true ↔ ¬ withinKTol (f.k.getD (kindex f q).1 (0, 0, 0)) q

/-- **C4 (counterexample).** `kindex` decides the warning with
`np.allclose(ret_k, k, atol=0.0001)`, whose *default* `rtol = 1e-5` widens
the tolerance to `1e-4 + 1e-5·|k_c|` per component: a stored k-point that
is `1.02e-4` away from the query `(1/2, 0, 0)` in the first component is
beyond the claim's `1e-4`, yet no warning is emitted. -/
theorem kindex_warning_counterexample :
    ¬ C4KStatement ⟨[], [(250051/500000, 0, 0)], [], 0, []⟩ (1/2, 0, 0) := by
  intro h
  rw [C4KStatement, kindex, kindexIdx] at h
  norm_num [argmin, npAllclose, withinKTol, l1dist] at h
  rw [abs_of_nonneg (by norm_num : (0:ℚ) ≤ 51/500000),
    abs_of_nonneg (by norm_num : (0:ℚ) ≤ 1/2)] at h
  norm_num at h

/-- **C4 (amended).** `Eindex` and `kindex` never fail on a file with at
least one stored energy / k-point: an integer energy query is returned
unchanged with no warning; a real energy query returns the index of the
stored energy nearest to the query, with a non-fatal `UserWarning` exactly
when the energy found differs by more than `1e-3` eV; a k-point query
returns the index of the stored k-point nearest (in L1 distance) to the
query, with a non-fatal `UserWarning` exactly when
`np.allclose(found, query, atol=1e-4)` fails — i.e. the tolerance is
`1e-4 + 1e-5·|query_c|` per component (numpy's default `rtol = 1e-5`),
not the bare `1e-4` of the claim. -/
theorem Eindex_kindex_nearest (f : TBTFile) :
    (∀ n : ℤ, Eindex f (Sum.inl n) = (n, false)) ∧
    (f.E ≠ [] → ∀ q : ℚ,
      Eindex f (Sum.inr q) = ((EindexIdx f q : ℤ),
        decide (1/1000 < |f.E.getD (EindexIdx f q) 0 - q|)) ∧
      EindexIdx f q < f.E.length ∧
      (∀ j, j < f.E.length →
        |f.E.getD (EindexIdx f q) 0 - q| ≤ |f.E.getD j 0 - q|) ∧
      ((Eindex f (Sum.inr q)).2 = true ↔ 1/1000 < |f.E.getD (EindexIdx f q) 0 - q|)) ∧
    (f.k ≠ [] → ∀ q : ℚ × ℚ × ℚ,
      kindex f q = (kindexIdx f q,
        ! decide (npAllclose (f.k.getD (kindexIdx f q) (0, 0, 0)) q)) ∧
      kindexIdx f q < f.k.length ∧
      (∀ j, j < f.k.length →
        l1dist (f.k.getD (kindexIdx f q) (0, 0, 0)) q ≤ l1dist (f.k.getD j (0, 0, 0)) q) ∧
      ((kindex f q).2 = true ↔ ¬ npAllclose (f.k.getD (kindexIdx f q) (0, 0, 0)) q)) := by
  refine ⟨fun n => rfl, ?_, ?_⟩
  · intro hne q
    have hmne : f.E.map (fun x => |x - q|) ≠ [] := by
      simpa using hne
    obtain ⟨hb, hle⟩ := argmin_spec _ hmne
    rw [List.length_map] at hb
    refine ⟨rfl, hb, ?_, by simp [Eindex]⟩
    intro j hj
    have h1 := hle j (by simpa using hj)
    rw [getD_map' _ _ _ 0 0 hb, getD_map' _ _ _ 0 0 hj] at h1
    exact h1
  · intro hne q
    have hmne : f.k.map (fun x => l1dist x q) ≠ [] := by
      simpa using hne
    obtain ⟨hb, hle⟩ := argmin_spec _ hmne
    rw [List.length_map] at hb
    refine ⟨rfl, hb, ?_, by simp [kindex]⟩
    intro j hj
    have h1 := hle j (by simpa using hj)
    rw [getD_map' _ _ _ (0, 0, 0) 0 hb, getD_map' _ _ _ (0, 0, 0) 0 hj] at h1
    exact h1

theorem Eindex_kindex_nearest_witness :
    Eindex ⟨[0, 1], [(0, 0, 0)], [], 0, []⟩ (Sum.inl 5) = (5, false) ∧
    EindexIdx ⟨[0, 1], [(0, 0, 0)], [], 0, []⟩ (1/2) < 2 ∧
    kindexIdx ⟨[0, 1], [(0, 0, 0)], [], 0, []⟩ (0, 0, 0) < 1 := by
  refine ⟨(Eindex_kindex_nearest _).1 5, ?_, ?_⟩
  · exact ((Eindex_kindex_nearest ⟨[0, 1], [(0, 0, 0)], [], 0, []⟩).2.1
      (by simp) (1/2)).2.1
  · exact ((Eindex_kindex_nearest ⟨[0, 1], [(0, 0, 0)], [], 0, []⟩).2.2
      (by simp) (0, 0, 0)).2.1

/-!
## `sisl/io/tbtrans/se.py` — `tbtsencSileTBtrans.pivot` and
`self_energy_average`
-/

/-- numpy inclusive `cumsum` on a 1-d integer array. -/
def cumsum : List ℕ → List ℕ
  | [] => []
  | x :: rest => x :: (cumsum rest).map (fun y => x + y)

/-- `np.sort` on a 1-d integer array (ascending; equal values are
indistinguishable, so any correct ascending sort gives numpy's output). -/
def npSort (l : List ℕ) : List ℕ := List.insertionSort (fun a b => a ≤ b) l

/-- `tbtsencSileTBtrans.pivot(elec, in_device, sort)`.

* `elec = None`: the line `if in_device and sort: pvt = arange(no_d)` is
  immediately followed by the unconditional `pvt = self._value('pivot') - 1`,
  so its assignment is dead; with `in_device` the pivot entries are then
  renumbered by subtracting, for each entry `p`, the inclusive count
  `cumsum(subn)[p]` of non-device orbitals up to `p`
  (`subn = ones(no); subn[pvt] = 0`), and `sort` is never consulted;
  without `in_device`, `sort` sorts the table.
* `elec` given: the electrode pivot `se_pvt = pivot(elec) - 1` is sorted
  when `sort` is set; with `in_device` it is translated through
  `in1d(pvt, se_pvt).nonzero()[0]`, where `pvt` (the full table, sorted when
  `sort` is set) is only computed in this branch. -/
def sePivot (f : TBTFile) (elec : Option ℕ) (in_device sort : Bool) : List ℕ :=
  match elec with
  | none =>
    let pvt := f.pivot1.map (fun x => x - 1)
    if in_device then
      let subn := (List.range f.no).map (fun j => if j ∈ pvt then 0 else 1)
      let csum := cumsum subn
      pvt.map (fun p => p - csum.getD p 0)
    else if sort then npSort pvt
    else pvt
  | some e =>
    let pvt0 := f.pivot1.map (fun x => x - 1)
    let pvt := if sort then npSort pvt0 else pvt0
    let se0 := (f.elecPivot.getD e []).map (fun x => x - 1)
    let sePvt := if sort then npSort se0 else se0
    if in_device then
      (List.range pvt.length).filter (fun t => decide (pvt.getD t 0 ∈ sePvt))
    else sePvt

/-- **C9.** The `sort` flag is handled asymmetrically in `pivot`: in the
full-system device-translated path (`elec=None, in_device=True`) the
`sort=True` branch only makes a dead assignment (immediately overwritten by
`pvt = self._value('pivot') - 1`), so the flag has no effect at all on the
result, for every file state; with an electrode given, the flag does change
the returned indices (concrete file state exhibited). -/
theorem sePivot_sort_flag_asymmetry :
    (∀ f : TBTFile, sePivot f none true true = sePivot f none true false) ∧
    sePivot ⟨[], [], [3, 1, 2], 3, [[3, 1]]⟩ (some 0) false true ≠
      sePivot ⟨[], [], [3, 1, 2], 3, [[3, 1]]⟩ (some 0) false false := by
  constructor
  · intro f
    rfl
  · decide

/-- A Python run-time error. -/
inductive PyErr where
  | nameError (name : String)
deriving DecidableEq, Repr

/-- `tbtsencSileTBtrans.self_energy_average(elec, E, sort)`: the body runs

* `tree = self._elec(elec)`,
* `iE = self.Eindex(E)` (modelled; it succeeds, see `Eindex`),
* `re = self._variable('ReSelfEnergyMean', tree=tree)` and the `im`
  analogue (plain variable lookups), and then
* `SE = (re[ik, iE, :, :] + 1j * im[ik, iE, :, :]) * Ry2eV`,

whose index tuple reads the local name `ik` — but no statement of this
function ever assigns `ik` (contrast `self_energy`, which has
`ik = self.kindex(k)`), so Python raises `NameError` while evaluating the
index expression, before touching any data. -/
def selfEnergyAverage (f : TBTFile) (_elec : ℕ) (E : ℤ ⊕ ℚ) (_sortSE : Bool) :
    Except PyErr (List (List CQ)) :=
  let _iE := Eindex f E
  Except.error (PyErr.nameError "ik")

/-- **C10.** For every electrode, energy and `sort` value,
`self_energy_average` never returns a value: every call fails with a
`NameError` on the unbound local `ik`. -/
theorem self_energy_average_unbound_ik :
    ∀ (f : TBTFile) (elec : ℕ) (E : ℤ ⊕ ℚ) (sortSE : Bool),
      selfEnergyAverage f elec E sortSE = Except.error (PyErr.nameError "ik") :=
  fun _ _ _ _ => rfl

/-!
## `sisl/io/siesta/siesta.py` — Hamiltonian NetCDF round trip

`write_hamiltonian` stores the CSR arrays of a finalized Hamiltonian
(1-based column indices, energies in Ry), and
`_read_class_spin`/`read_hamiltonian` restore them (0-based, eV).
Geometry variables also written/read are not modelled (the claim is about
`ncol`, `col` and the data).  The data kind is `'f'` by construction here
(entries are exact rationals), so the `dkind` guard never fires.
-/

/-- `unit_convert('Ry', 'eV')` of `sisl.unit.siesta`; only `Ry2eV ≠ 0`
matters for the round-trip statements. -/
def Ry2eV : ℚ := 1360569253 / 100000000

theorem Ry2eV_ne_zero : Ry2eV ≠ 0 := by
  norm_num [Ry2eV]

/-- The CSR content of a finalized sisl sparse matrix, as the writer reads
it: per-row non-zero counts `ncol` (`H._csr.ncol`), flattened 0-based
supercell column indices `col` (`H._csr.col`), per-element data `D`
(`H._csr._D`; one inner list per non-zero element with `spin` entries, plus
a trailing overlap entry at `H.S_idx = spin` when `orthogonal` is false). -/
structure SparseH where
  spin : ℕ
  orthogonal : Bool
  ncol : List ℕ
  col : List ℕ
  D : List (List ℚ)
deriving DecidableEq, Repr

/-- Start offset of row `r` in the flattened `col` array (`_csr.ptr`). -/
def rowStart (ncol : List ℕ) (r : ℕ) : ℕ := ((ncol.take r).sum)

/-- The supercell column indices of row `r`. -/
def rowCols (H : SparseH) (r : ℕ) : List ℕ :=
  (H.col.drop (rowStart H.ncol r)).take (H.ncol.getD r 0)

/-- The row that flattened element `j` belongs to. -/
def elemRow : List ℕ → ℕ → ℕ
  | [], _ => 0
  | c :: rest, j => if j < c then 0 else elemRow rest (j - c) + 1

/-- Every row contains its home-cell on-site (diagonal) element.  The
writer's orthogonal branch inserts `tmp[i, i] = 1.` into a zeroed copy of
the pattern and raises iff that insertion grew the pattern
(`tmp.nnz != H.nnz`), i.e. iff some diagonal is missing. -/
def diagComplete (H : SparseH) : Prop :=
  ∀ r, r < H.ncol.length → r ∈ rowCols H r

instance (H : SparseH) : Decidable (diagComplete H) := by
  unfold diagComplete
  infer_instance

/-- The overlap values the orthogonal branch writes: `1` at home-cell
diagonal positions, `0` elsewhere (a zeroed copy of the pattern with
`tmp[i, i] = 1.`). -/
def orthogonalS (H : SparseH) : List ℚ :=
  (List.range H.col.length).map (fun j => if H.col.getD j 0 = elemRow H.ncol j then 1 else 0)

/-- The NetCDF variables created by `write_hamiltonian` that the reader
reads back: the `spin` dimension, `Ef` (stored in Ry), `n_col`, the
1-based `list_col`, the overlap `S`, and the per-spin Hamiltonian rows
`Hvar` (stored in Ry). -/
structure SiestaNC where
  spinDim : ℕ
  Ef : ℚ
  n_col : List ℕ
  list_col : List ℕ
  S : List ℚ
  Hvar : List (List ℚ)
deriving DecidableEq, Repr

/-- The record `write_hamiltonian` stores when no guard fires:
`Ef` divided by `Ry2eV` (eV → Ry), `n_col = ncol`, `list_col = col + 1`
("correct for fortran indices"), `S` from the orthogonal pattern or the
`S_idx` data column, and `H[i, :] = D[:, i] / Ry2eV`. -/
def writeNC (H : SparseH) (Ef : ℚ) : SiestaNC where
  spinDim := H.spin
  Ef := Ef / Ry2eV
  n_col := H.ncol
  list_col := H.col.map (fun c => c + 1)
  S := if H.orthogonal then orthogonalS H
    else H.D.map (fun row => row.getD H.spin 0)
  Hvar := (List.range H.spin).map (fun i => H.D.map (fun row => row.getD i 0 / Ry2eV))

/-- `ncSileSiesta.write_hamiltonian(H, Ef)`: raises on a Hamiltonian with
zero non-zero elements; in the orthogonal branch raises when some on-site
term is missing; otherwise stores `writeNC`. -/
def write_hamiltonian (H : SparseH) (Ef : ℚ) : Except String SiestaNC :=
  if H.col.length = 0 then
    Except.error "cannot write a Hamiltonian with zero non-zero elements"
  else if H.orthogonal ∧ ¬ diagComplete H then
    Except.error "not all on-site terms defined"
  else
    Except.ok (writeNC H Ef)

/-- `ncSileSiesta._read_class_spin(Hamiltonian)` followed by
`read_hamiltonian`: builds an (always non-orthogonal) container with
`ncol = n_col`, `col = list_col - 1`, overlap column `S_idx = spin` from
`S`, and for each spin `i` the data `H[i, :] * Ry2eV`, shifted by
`- Ef_eV * S` for `i < 2` (`Ef` is tiled to two entries; `Ef_eV =
Ef_stored * Ry2eV`). -/
def read_hamiltonian (nc : SiestaNC) : SparseH where
  spin := nc.spinDim
  orthogonal := false
  ncol := nc.n_col
  col := nc.list_col.map (fun c => c - 1)
  D := (List.range nc.S.length).map (fun j =>
    ((List.range nc.spinDim).map (fun i =>
      (nc.Hvar.getD i []).getD j 0 * Ry2eV
        - (if i < 2 then (nc.Ef * Ry2eV) * nc.S.getD j 0 else 0)))
    ++ [nc.S.getD j 0])

theorem getD_range (n i : ℕ) (h : i < n) : (List.range n).getD i 0 = i := by
  rw [List.getD_eq_getElem?_getD, List.getElem?_eq_getElem (by simpa using h)]
  simp

/-- **C5.** Writing a finalized floating-point Hamiltonian with non-zero
element count (default `Ef = 0`) and reading it back reproduces the sparse
matrix: `list_col` is stored 1-based and restored 0-based, energies are
stored in Ry (`/ Ry2eV`) and restored in eV (`* Ry2eV`), so the per-row
counts `ncol`, the column array `col`, and the per-spin Hamiltonian data
are unchanged by the round trip (exact rational arithmetic; an orthogonal
Hamiltonian must carry all its on-site terms for the writer not to raise). -/
theorem ncSiesta_hamiltonian_roundtrip (H : SparseH)
    (hnnz : H.col.length ≠ 0)
    (hD : H.D.length = H.col.length)
    (hdiag : H.orthogonal = true → diagComplete H) :
    write_hamiltonian H 0 = Except.ok (writeNC H 0) ∧
    (read_hamiltonian (writeNC H 0)).ncol = H.ncol ∧
    (read_hamiltonian (writeNC H 0)).col = H.col ∧
    (read_hamiltonian (writeNC H 0)).D.length = H.col.length ∧
    ∀ i, i < H.spin → ∀ j, j < H.col.length →
      ((read_hamiltonian (writeNC H 0)).D.getD j []).getD i 0
        = (H.D.getD j []).getD i 0 := by
  have hS : (writeNC H 0).S.length = H.col.length := by
    by_cases ho : H.orthogonal = true
    · simp [writeNC, ho, orthogonalS]
    · simp only [Bool.not_eq_true] at ho
      simp [writeNC, ho, hD]
  refine ⟨?_, rfl, ?_, ?_, ?_⟩
  · unfold write_hamiltonian
    rw [if_neg hnnz, if_neg]
    intro hc
    exact absurd (hdiag hc.1) hc.2
  · show (H.col.map (fun c => c + 1)).map (fun c => c - 1) = H.col
    rw [List.map_map]
    have hid : ((fun c => c - 1) ∘ fun c => c + 1) = (id : ℕ → ℕ) := by
      funext c
      simp
    rw [hid, List.map_id]
  · show ((List.range (writeNC H 0).S.length).map _).length = H.col.length
    rw [List.length_map, List.length_range, hS]
  · intro i hi j hj
    have hjR : j < (List.range (writeNC H 0).S.length).length := by
      rw [List.length_range, hS]
      exact hj
    show (((List.range (writeNC H 0).S.length).map _).getD j []).getD i 0
      = (H.D.getD j []).getD i 0
    rw [getD_map' _ _ _ 0 [] hjR, getD_range _ _ (by rw [hS]; exact hj)]
    rw [List.getD_append _ _ _ i (by rw [List.length_map, List.length_range]; exact hi)]
    rw [getD_map' _ _ _ 0 0 (by rw [List.length_range]; exact hi),
      getD_range (writeNC H 0).spinDim i hi]
    have hHvar : (writeNC H 0).Hvar.getD i []
        = H.D.map (fun row => row.getD i 0 / Ry2eV) := by
      show ((List.range H.spin).map _).getD i [] = _
      rw [getD_map' _ _ _ 0 [] (by rw [List.length_range]; exact hi), getD_range _ _ hi]
    rw [hHvar, getD_map' _ _ _ [] 0 (by rw [hD]; exact hj)]
    have hEf : (writeNC H 0).Ef = 0 := by
      show (0 : ℚ) / Ry2eV = 0
      simp
    rw [hEf]
    rw [div_mul_cancel₀ _ Ry2eV_ne_zero]
    simp

theorem ncSiesta_hamiltonian_roundtrip_witness :
    write_hamiltonian ⟨1, false, [1], [0], [[2, 1]]⟩ 0
      = Except.ok (writeNC ⟨1, false, [1], [0], [[2, 1]]⟩ 0) ∧
    (read_hamiltonian (writeNC ⟨1, false, [1], [0], [[2, 1]]⟩ 0)).ncol = [1] ∧
    (read_hamiltonian (writeNC ⟨1, false, [1], [0], [[2, 1]]⟩ 0)).col = [0] ∧
    ((read_hamiltonian (writeNC ⟨1, false, [1], [0], [[2, 1]]⟩ 0)).D.getD 0 []).getD 0 0
      = 2 := by
  have h := ncSiesta_hamiltonian_roundtrip ⟨1, false, [1], [0], [[2, 1]]⟩
    (by decide) (by decide) (by intro hc; cases hc)
  refine ⟨h.1, h.2.1, h.2.2.1, ?_⟩
  have h5 := h.2.2.2.2 0 (by decide) 0 (by decide)
  rw [h5]
  rfl

/-!
## MonkhorstPack k-point grids (modelled from the spec)

The `MonkhorstPack` implementation is not among the provided source files —
only its tests (`sisl/physics/tests/test_brillouinzone.py`) are — so the
generation algorithm is modelled from specification §4.5.
-/

/-- Modelled from the spec: the missing `MonkhorstPack` per-axis grid —
"generate the regular grid `{(i+0.5)/n - 0.5}` […] when time-reversal
symmetry, `trs`, is requested, or `{i/n}` otherwise". -/
def mpAxis (trs : Bool) (n : ℕ) : List ℚ :=
  (List.range n).map (fun (i : ℕ) => if trs then ((i : ℚ) + 1/2) / n - 1/2 else (i : ℚ) / n)

/-- Modelled from the spec: the displacement shift, "mod 1, wrapped into
`(-0.5, 0.5]`". -/
def wrapHalf (x : ℚ) : ℚ := x - ⌈x - 1/2⌉

/-- Modelled from the spec: one axis of k-values with displacement and
`size` rescaling applied. -/
def mpAxisFull (trs : Bool) (n : ℕ) (d s : ℚ) : List ℚ :=
  (mpAxis trs n).map (fun k => wrapHalf (k + d) * s)

/-- Modelled from the spec: the full 3-d MonkhorstPack grid (row-major
product of the three axes). -/
def mpGrid (trs : Bool) (n : ℕ × ℕ × ℕ) (disp size3 : ℚ × ℚ × ℚ) :
    List (ℚ × ℚ × ℚ) :=
  (mpAxisFull trs n.1 disp.1 size3.1).flatMap (fun kx =>
    (mpAxisFull trs n.2.1 disp.2.1 size3.2.1).flatMap (fun ky =>
      (mpAxisFull trs n.2.2 disp.2.2 size3.2.2).map (fun kz => (kx, ky, kz))))

/-- Fractional part: `x - ⌊x⌋ = 0` iff `x` is an integer. -/
def fracZ (x : ℚ) : ℚ := x - ⌊x⌋

/-- Modelled from the spec: `a` and `b` are time-reversal partners,
`a ≡ -b (mod 1)` in every component. -/
def kNegPair (a b : ℚ × ℚ × ℚ) : Prop :=
  fracZ (a.1 + b.1) = 0 ∧ fracZ (a.2.1 + b.2.1) = 0 ∧ fracZ (a.2.2 + b.2.2) = 0

instance (a b : ℚ × ℚ × ℚ) : Decidable (kNegPair a b) := by
  unfold kNegPair
  infer_instance

/-- Modelled from the spec: the time-reversal collapse — "collapse k↔-k
pairs (keeping one representative, doubling its weight) except for
self-paired k-points (k ≡ -k mod 1) which keep weight ×1"; every kept
point carries the uniform pre-collapse weight `w`. -/
def trsCollapse (w : ℚ) : List (ℚ × ℚ × ℚ) → List ((ℚ × ℚ × ℚ) × ℚ)
  | [] => []
  | p :: rest =>
    if kNegPair p p then (p, w) :: trsCollapse w rest
    else if rest.any (fun x => decide (kNegPair p x)) then
      (p, 2 * w) :: trsCollapse w (rest.eraseP (fun x => decide (kNegPair p x)))
    else (p, w) :: trsCollapse w rest
termination_by l => l.length
decreasing_by
  · simp
  · simp only [List.length_cons]
    exact Nat.lt_succ_of_le (List.length_eraseP_le rest)
  · simp

/-- Modelled from the spec: the MonkhorstPack k-point/weight list for axis
sizes `n`, displacement `disp`, size factors `size3` and the `trs` flag;
"weight of every kept point before TRS collapsing is
`size_x·size_y·size_z / (nx·ny·nz)`". -/
def MonkhorstPack (n : ℕ × ℕ × ℕ) (disp size3 : ℚ × ℚ × ℚ) (trs : Bool) :
    List ((ℚ × ℚ × ℚ) × ℚ) :=
  let w := (size3.1 * size3.2.1 * size3.2.2) / ((n.1 * n.2.1 * n.2.2 : ℕ) : ℚ)
  if trs then trsCollapse w (mpGrid trs n disp size3)
  else (mpGrid trs n disp size3).map (fun k => (k, w))

/-- `bz.weight.sum()`. -/
def weightSum (l : List ((ℚ × ℚ × ℚ) × ℚ)) : ℚ := (l.map Prod.snd).sum

theorem length_eraseP_of_any {α} (p : α → Bool) (l : List α) (h : l.any p = true) :
    (l.eraseP p).length + 1 = l.length := by
  induction l with
  | nil => simp at h
  | cons x t ih =>
    by_cases hx : p x = true
    · simp [List.eraseP_cons, hx]
    · have hx' : p x = false := by
        simpa using hx
      have ht : t.any p = true := by
        simpa [hx'] using h
      simp [List.eraseP_cons, hx', ih ht]

theorem trsCollapse_weightSum (w : ℚ) (l : List (ℚ × ℚ × ℚ)) :
    weightSum (trsCollapse w l) = w * l.length := by
  induction l using trsCollapse.induct w with
  | case1 => simp [trsCollapse, weightSum]
  | case2 p rest hself ih =>
    rw [trsCollapse, if_pos hself]
    simp only [weightSum, List.map_cons, List.sum_cons, List.length_cons] at ih ⊢
    rw [ih]
    push_cast
    ring
  | case3 p rest hself hany ih =>
    rw [trsCollapse, if_neg hself, if_pos hany]
    simp only [weightSum, List.map_cons, List.sum_cons, List.length_cons] at ih ⊢
    rw [ih]
    have hl := length_eraseP_of_any _ rest hany
    have hc : ((rest.eraseP (fun x => decide (kNegPair p x))).length : ℚ) + 1
        = (rest.length : ℚ) := by
      exact_mod_cast hl
    push_cast
    rw [← hc]
    ring
  | case4 p rest hself hany ih =>
    rw [trsCollapse, if_neg hself, if_neg hany]
    simp only [weightSum, List.map_cons, List.sum_cons, List.length_cons] at ih ⊢
    rw [ih]
    push_cast
    ring

theorem sum_map_constN {α} (l : List α) (c : ℕ) :
    (l.map (fun _ => c)).sum = l.length * c := by
  induction l with
  | nil => simp
  | cons x t ih =>
    simp only [List.map_cons, List.sum_cons, List.length_cons, ih]
    ring

theorem mpGrid_length (trs : Bool) (n : ℕ × ℕ × ℕ) (disp size3 : ℚ × ℚ × ℚ) :
    (mpGrid trs n disp size3).length = n.1 * n.2.1 * n.2.2 := by
  have haxis : ∀ (b : Bool) (m : ℕ) (d s : ℚ), (mpAxisFull b m d s).length = m := by
    intro b m d s
    rw [mpAxisFull, List.length_map, mpAxis, List.length_map, List.length_range]
  unfold mpGrid
  rw [List.length_flatMap]
  simp only [Function.comp_def]
  have hinner : ∀ kx : ℚ, ((mpAxisFull trs n.2.1 disp.2.1 size3.2.1).flatMap (fun ky =>
      (mpAxisFull trs n.2.2 disp.2.2 size3.2.2).map (fun kz => (kx, ky, kz)))).length
      = n.2.1 * n.2.2 := by
    intro kx
    rw [List.length_flatMap]
    simp only [Function.comp_def, List.length_map, haxis]
    rw [sum_map_constN, haxis]
  simp only [hinner]
  rw [sum_map_constN, haxis]
  ring

theorem sum_map_constQ {α} (l : List α) (c : ℚ) :
    (l.map (fun _ => c)).sum = l.length * c := by
  induction l with
  | nil => simp
  | cons x t ih =>
    simp only [List.map_cons, List.sum_cons, List.length_cons, ih]
    push_cast
    ring

/-- **C8.** For every MonkhorstPack grid with positive axis sizes (in
particular all sizes in the tested ranges `1..10 × 1..20 × 1..6`), with or
without time-reversal-symmetry reduction, for any displacement and any size
factors, the sum of all k-point weights equals the product of the size
factors exactly — hence in particular within `1e-9` (`size = (1,1,1)`,
i.e. a sum of `1.0`, when no size is given). -/
theorem monkhorst_pack_weight_sum (n1 n2 n3 : ℕ)
    (h1 : 1 ≤ n1) (h2 : 1 ≤ n2) (h3 : 1 ≤ n3)
    (disp size3 : ℚ × ℚ × ℚ) (trs : Bool) :
    weightSum (MonkhorstPack (n1, n2, n3) disp size3 trs)
      = size3.1 * size3.2.1 * size3.2.2 ∧
    |weightSum (MonkhorstPack (n1, n2, n3) disp size3 trs)
      - size3.1 * size3.2.1 * size3.2.2| ≤ 1/1000000000 := by
  have hN : ((((n1, n2, n3) : ℕ × ℕ × ℕ).1 * ((n1, n2, n3) : ℕ × ℕ × ℕ).2.1
      * ((n1, n2, n3) : ℕ × ℕ × ℕ).2.2 : ℕ) : ℚ) ≠ 0 := by
    rw [Nat.cast_ne_zero]
    have hpos : 0 < n1 * n2 * n3 := Nat.mul_pos (Nat.mul_pos h1 h2) h3
    simp only [Prod.fst, Prod.snd]
    omega
  have key : weightSum (MonkhorstPack (n1, n2, n3) disp size3 trs)
      = size3.1 * size3.2.1 * size3.2.2 := by
    cases trs with
    | true =>
      show weightSum (trsCollapse _ (mpGrid true (n1, n2, n3) disp size3)) = _
      rw [trsCollapse_weightSum, mpGrid_length]
      exact div_mul_cancel₀ _ hN
    | false =>
      show weightSum ((mpGrid false (n1, n2, n3) disp size3).map _) = _
      unfold weightSum
      rw [List.map_map]
      rw [show (Prod.snd ∘ fun k : ℚ × ℚ × ℚ =>
        (k, (size3.1 * size3.2.1 * size3.2.2)
          / ((((n1, n2, n3) : ℕ × ℕ × ℕ).1 * ((n1, n2, n3) : ℕ × ℕ × ℕ).2.1
            * ((n1, n2, n3) : ℕ × ℕ × ℕ).2.2 : ℕ) : ℚ)))
        = fun _ : ℚ × ℚ × ℚ => (size3.1 * size3.2.1 * size3.2.2)
          / ((((n1, n2, n3) : ℕ × ℕ × ℕ).1 * ((n1, n2, n3) : ℕ × ℕ × ℕ).2.1
            * ((n1, n2, n3) : ℕ × ℕ × ℕ).2.2 : ℕ) : ℚ) from rfl]
      rw [sum_map_constQ, mpGrid_length, mul_comm]
      exact div_mul_cancel₀ _ hN
  refine ⟨key, ?_⟩
  rw [key, sub_self, abs_zero]
  norm_num

theorem monkhorst_pack_weight_sum_witness :
    weightSum (MonkhorstPack (10, 20, 6) (0, 0, 0) (1, 1, 1) true) = 1 ∧
    weightSum (MonkhorstPack (3, 3, 3) (0, 0, 0) (1, 1, 1) false) = 1 := by
  constructor
  · have h := (monkhorst_pack_weight_sum 10 20 6 (by omega) (by omega) (by omega)
      (0, 0, 0) (1, 1, 1) true).1
    rw [h]
    norm_num
  · have h := (monkhorst_pack_weight_sum 3 3 3 (by omega) (by omega) (by omega)
      (0, 0, 0) (1, 1, 1) false).1
    rw [h]
    norm_num

/-!
## `np.argsort` — numpy's default quicksort on indices

`EigenSystem.sort` calls `np.argsort(self.e)` with the **default**
`kind='quicksort'`: numpy's in-place index quicksort
(`aquicksort` in `numpy/core/src/npysort/quicksort.c.src`),
a median-of-3 Hoare partition scheme that hands segments of at most
`SMALL_QUICKSORT = 15` elements (span `pr - pl ≤ 15`) to a stable
insertion sort.  The model below follows that algorithm on `arr`, the
index array (`tosort`), with `v` the value array; positions are absolute
indices into `arr` and a segment is the inclusive range `[pl, pr]`.
The C code processes the two sides of a partition via an explicit stack
(smaller side first); the sides are disjoint, so the recursion below
computes the same array.  numpy's float comparison `Type_LT` is plain
`<` on non-NaN data, i.e. on `ℚ`.
-/

/-- Value of index `i`: `v[arr-entry]`. -/
def val (v : List ℚ) (i : ℕ) : ℚ := v.getD i 0

/-- `INTP_SWAP(*pi, *pj)`: swap two positions of the index array. -/
def aswap (arr : List ℕ) (i j : ℕ) : List ℕ :=
  (arr.set i (arr.getD j 0)).set j (arr.getD i 0)

/-- `do ++pi; while (v[*pi] < vp)`: starting from `i`, the first position
`> i` whose value is not `< vp` (fuel-bounded; the pivot at `pr - 1` is
the sentinel that stops it in range). -/
def scanUp (v : List ℚ) (arr : List ℕ) (vp : ℚ) : ℕ → ℕ → ℕ
  | i, 0 => i + 1
  | i, fuel + 1 =>
    if val v (arr.getD (i + 1) 0) < vp then scanUp v arr vp (i + 1) fuel else i + 1

/-- `do --pj; while (vp < v[*pj])`: starting from `j`, the first position
`< j` whose value is not `> vp` (fuel-bounded; the median-of-3 element at
`pl` is the sentinel that stops it in range). -/
def scanDown (v : List ℚ) (arr : List ℕ) (vp : ℚ) : ℕ → ℕ → ℕ
  | j, 0 => j - 1
  | j, fuel + 1 =>
    if vp < val v (arr.getD (j - 1) 0) then scanDown v arr vp (j - 1) fuel else j - 1

/-- The partition swap loop: scan up from `pi`, down from `pj`, stop when
the scans cross, else swap and continue. -/
def partLoop (v : List ℚ) (vp : ℚ) : List ℕ → ℕ → ℕ → ℕ → List ℕ × ℕ
  | arr, pi, _, 0 => (arr, pi)
  | arr, pi, pj, fuel + 1 =>
    let pi' := scanUp v arr vp pi arr.length
    let pj' := scanDown v arr vp pj arr.length
    if pj' ≤ pi' then (arr, pi')
    else partLoop v vp (aswap arr pi' pj') pi' pj' fuel

/-- The three conditional swaps putting the median of
`arr[pl], arr[pm], arr[pr]` at `pm` (with the smallest at `pl` and the
largest at `pr`). -/
def med3 (v : List ℚ) (arr : List ℕ) (pl pr : ℕ) : List ℕ :=
  let pm := pl + (pr - pl) / 2
  let a1 := if val v (arr.getD pm 0) < val v (arr.getD pl 0) then aswap arr pm pl else arr
  let a2 := if val v (a1.getD pr 0) < val v (a1.getD pm 0) then aswap a1 pr pm else a1
  if val v (a2.getD pm 0) < val v (a2.getD pl 0) then aswap a2 pm pl else a2

/-- One full partition of the segment `[pl, pr]`: median-of-3, pivot
parked at `pr - 1`, swap loop from `(pl, pr - 1)`, pivot swapped to the
crossing point `pi`.  Returns the new array and `pi`. -/
def partitionStep (v : List ℚ) (arr : List ℕ) (pl pr : ℕ) : List ℕ × ℕ :=
  let pm := pl + (pr - pl) / 2
  let a := med3 v arr pl pr
  let vp := val v (a.getD pm 0)
  let a1 := aswap a pm (pr - 1)
  let res := partLoop v vp a1 pl (pr - 1) (pr - pl)
  (aswap res.1 res.2 (pr - 1), res.2)

/-- The comparison the insertion sort uses: by value only. -/
def valLE (v : List ℚ) (i j : ℕ) : Prop := val v i ≤ val v j

instance (v : List ℚ) (i j : ℕ) : Decidable (valLE v i j) := by
  unfold valLE
  infer_instance

instance (v : List ℚ) : IsTotal ℕ (valLE v) := ⟨fun i j => le_total (val v i) (val v j)⟩

instance (v : List ℚ) : IsTrans ℕ (valLE v) := ⟨fun _ _ _ h1 h2 => le_trans h1 h2⟩

/-- The small-segment insertion sort of `[pl, pr]`: a stable sort of the
segment by value (numpy's shifting insertion sort is stable by value, so
it computes the same segment as Mathlib's stable `insertionSort`). -/
def insSortSeg (v : List ℚ) (arr : List ℕ) (pl pr : ℕ) : List ℕ :=
  arr.take pl ++ List.insertionSort (valLE v) ((arr.drop pl).take (pr + 1 - pl))
    ++ arr.drop (pr + 1)

/-- The quicksort driver on the segment `[pl, pr]`: partition while the
span exceeds `SMALL_QUICKSORT = 15`, then insertion sort.  `fuel` bounds
the recursion depth; every partition shrinks the span, so `fuel = n`
suffices (established in the theorems below). -/
def qsortSeg (v : List ℚ) : ℕ → List ℕ → ℕ → ℕ → List ℕ
  | 0, arr, _, _ => arr
  | fuel + 1, arr, pl, pr =>
    if 15 < pr - pl then
      let res := partitionStep v arr pl pr
      qsortSeg v fuel (qsortSeg v fuel res.1 pl (res.2 - 1)) (res.2 + 1) pr
    else insSortSeg v arr pl pr

/-- `np.argsort(v)` with numpy's default `kind='quicksort'`. -/
def npArgsort (v : List ℚ) : List ℕ :=
  qsortSeg v v.length (List.range v.length) 0 (v.length - 1)

/-- The index permutation `EigenSystem.sort(ascending)` computes:
`np.argsort(self.e)` when ascending, else `np.argsort(-self.e)`. -/
def sortIdx (es : EigenSystem) (ascending : Bool) : List ℕ :=
  if ascending then npArgsort es.e else npArgsort (es.e.map (fun x => -x))

/-- `EigenSystem.sort(ascending)` (in-place in Python; returned here):
`self.e = self.e[idx]`, `self.v = self.v[idx, :]` for the `argsort`
permutation `idx`; `info` is untouched. -/
def EigenSystem.sort (es : EigenSystem) (ascending : Bool) : EigenSystem :=
  ⟨(sortIdx es ascending).map (fun i => es.e.getD i 0),
    (sortIdx es ascending).map (fun i => es.v.getD i []),
    es.infoId⟩

/-! ### Groundwork: positions, swaps and segment operations -/

theorem getD_set_self (l : List ℕ) (i x : ℕ) (h : i < l.length) :
    (l.set i x).getD i 0 = x := by
  rw [List.getD_eq_getElem?_getD, List.getElem?_set_self', List.getElem?_eq_getElem h]
  rfl

theorem getD_set_ne (l : List ℕ) (i t x : ℕ) (h : t ≠ i) :
    (l.set i x).getD t 0 = l.getD t 0 := by
  rw [List.getD_eq_getElem?_getD, List.getElem?_set_ne (by omega), ← List.getD_eq_getElem?_getD]

theorem length_aswap (arr : List ℕ) (i j : ℕ) : (aswap arr i j).length = arr.length := by
  simp [aswap]

theorem getD_aswap_fst (arr : List ℕ) (i j : ℕ) (hi : i < arr.length) :
    (aswap arr i j).getD i 0 = arr.getD j 0 := by
  unfold aswap
  by_cases hij : i = j
  · subst hij
    rw [getD_set_self _ _ _ (by simpa using hi)]
  · rw [getD_set_ne _ _ _ _ hij, getD_set_self _ _ _ hi]

theorem getD_aswap_snd (arr : List ℕ) (i j : ℕ) (hj : j < arr.length) :
    (aswap arr i j).getD j 0 = arr.getD i 0 := by
  unfold aswap
  rw [getD_set_self _ _ _ (by simpa using hj)]

theorem getD_aswap_other (arr : List ℕ) (i j t : ℕ) (h1 : t ≠ i) (h2 : t ≠ j) :
    (aswap arr i j).getD t 0 = arr.getD t 0 := by
  unfold aswap
  rw [getD_set_ne _ _ _ _ h2, getD_set_ne _ _ _ _ h1]

theorem aswap_comm (arr : List ℕ) (i j : ℕ) : aswap arr i j = aswap arr j i := by
  by_cases hij : i = j
  · subst hij
    rfl
  · unfold aswap
    exact List.set_comm _ _ _ hij

theorem set_getD_self (l : List ℕ) (i : ℕ) : l.set i (l.getD i 0) = l := by
  apply List.ext_getElem?
  intro t
  by_cases ht : t = i
  · subst ht
    by_cases h : t < l.length
    · rw [List.getElem?_set_self', List.getElem?_eq_getElem h, List.getD_eq_getElem?_getD,
        List.getElem?_eq_getElem h]
      rfl
    · rw [List.getElem?_set_self']
      rw [List.getElem?_eq_none (by omega)]
      rfl
  · rw [List.getElem?_set_ne (by omega)]

theorem aswap_self (arr : List ℕ) (i : ℕ) : aswap arr i i = arr := by
  unfold aswap
  rw [List.set_set, set_getD_self]

theorem take_set_of_le (l : List ℕ) (i k x : ℕ) (h : k ≤ i) :
    (l.set i x).take k = l.take k := by
  apply List.ext_getElem?
  intro t
  rw [List.getElem?_take, List.getElem?_take]
  by_cases ht : t < k
  · rw [if_pos ht, if_pos ht, List.getElem?_set_ne (by omega)]
  · rw [if_neg ht, if_neg ht]

theorem drop_set_of_lt (l : List ℕ) (i k x : ℕ) (h : i < k) :
    (l.set i x).drop k = l.drop k := by
  apply List.ext_getElem?
  intro t
  rw [List.getElem?_drop, List.getElem?_drop, List.getElem?_set_ne (by omega)]

theorem getD_eq_getElem' (l : List ℕ) (t : ℕ) (h : t < l.length) : l.getD t 0 = l[t] := by
  rw [List.getD_eq_getElem?_getD, List.getElem?_eq_getElem h]
  rfl

theorem aswap_perm (arr : List ℕ) (i j : ℕ) (hi : i < arr.length) (hj : j < arr.length) :
    (aswap arr i j).Perm arr := by
  by_cases hij : i = j
  · subst hij
    rw [aswap_self]
  · rw [List.perm_iff_count]
    intro x
    unfold aswap
    have hjl : j < (arr.set i (arr.getD j 0)).length := by
      simpa using hj
    rw [List.count_set _ _ _ _ hjl, List.count_set _ _ _ _ hi]
    have hji : (arr.set i (arr.getD j 0))[j] = arr[j] := by
      rw [List.getElem_set_ne (by omega)]
    have ha : arr.getD i 0 = arr[i] := getD_eq_getElem' arr i hi
    have hb : arr.getD j 0 = arr[j] := getD_eq_getElem' arr j hj
    have hc1 : arr[i] = x → 1 ≤ List.count x arr := by
      intro h
      have : x ∈ arr := h ▸ List.getElem_mem hi
      exact List.count_pos_iff.mpr this
    have hc2 : arr[j] = x → 1 ≤ List.count x arr := by
      intro h
      have : x ∈ arr := h ▸ List.getElem_mem hj
      exact List.count_pos_iff.mpr this
    rw [hji, ha, hb]
    simp only [beq_iff_eq]
    by_cases h1 : arr[i] = x <;> by_cases h2 : arr[j] = x
    · rw [if_pos h1, if_pos h2]
      have := hc1 h1
      omega
    · rw [if_pos h1, if_neg h2]
      have := hc1 h1
      omega
    · rw [if_neg h1, if_pos h2]
      have := hc2 h2
      omega
    · rw [if_neg h1, if_neg h2]
      omega

/-- The inclusive segment `[pl, pr]` of the index array. -/
def seg (arr : List ℕ) (pl pr : ℕ) : List ℕ := (arr.drop pl).take (pr + 1 - pl)

/-- What one quicksort step may do to `[pl, pr]`: keep the length, keep
everything outside the segment, permute the segment. -/
def SegOp (arr arr' : List ℕ) (pl pr : ℕ) : Prop :=
  arr'.length = arr.length ∧ arr'.take pl = arr.take pl ∧
  arr'.drop (pr + 1) = arr.drop (pr + 1) ∧ (seg arr' pl pr).Perm (seg arr pl pr)

theorem SegOp.rfl' (arr : List ℕ) (pl pr : ℕ) : SegOp arr arr pl pr :=
  ⟨rfl, rfl, rfl, List.Perm.refl _⟩

theorem SegOp.trans' {arr₁ arr₂ arr₃ : List ℕ} {pl pr : ℕ}
    (h1 : SegOp arr₁ arr₂ pl pr) (h2 : SegOp arr₂ arr₃ pl pr) : SegOp arr₁ arr₃ pl pr :=
  ⟨h2.1.trans h1.1, h2.2.1.trans h1.2.1, h2.2.2.1.trans h1.2.2.1,
    h2.2.2.2.trans h1.2.2.2⟩

theorem seg_decomp (arr : List ℕ) (pl pr : ℕ) (h : pl ≤ pr + 1) :
    arr = arr.take pl ++ (seg arr pl pr ++ arr.drop (pr + 1)) := by
  have h1 : arr.take pl ++ arr.drop pl = arr := List.take_append_drop ..
  have h2 : (arr.drop pl).take (pr + 1 - pl) ++ (arr.drop pl).drop (pr + 1 - pl)
      = arr.drop pl := List.take_append_drop ..
  have h3 : (arr.drop pl).drop (pr + 1 - pl) = arr.drop (pr + 1) := by
    rw [List.drop_drop]
    congr 1
    omega
  rw [seg, ← h3, h2, h1]

theorem SegOp.whole_perm {arr arr' : List ℕ} {pl pr : ℕ}
    (h : SegOp arr arr' pl pr) (hle : pl ≤ pr + 1) : arr'.Perm arr := by
  rw [seg_decomp arr pl pr hle, seg_decomp arr' pl pr hle, h.2.1, h.2.2.1]
  exact List.Perm.append_left _ (List.Perm.append_right _ h.2.2.2)

theorem SegOp.of_parts {arr arr' : List ℕ} {pl pr : ℕ}
    (hlen : arr'.length = arr.length) (ht : arr'.take pl = arr.take pl)
    (hd : arr'.drop (pr + 1) = arr.drop (pr + 1)) (hp : arr'.Perm arr)
    (hle : pl ≤ pr + 1) : SegOp arr arr' pl pr := by
  refine ⟨hlen, ht, hd, ?_⟩
  have h1 := seg_decomp arr pl pr hle
  have h2 := seg_decomp arr' pl pr hle
  rw [h1, h2, ht, hd] at hp
  rw [List.perm_append_left_iff] at hp
  rw [← List.perm_append_right_iff (arr.drop (pr + 1))]
  exact hp

theorem aswap_SegOp (arr : List ℕ) (i j pl pr : ℕ)
    (hpl1 : pl ≤ i) (hpr1 : i ≤ pr) (hpl2 : pl ≤ j) (hpr2 : j ≤ pr)
    (hlen : pr < arr.length) : SegOp arr (aswap arr i j) pl pr := by
  refine SegOp.of_parts (length_aswap ..) ?_ ?_ (aswap_perm arr i j (by omega) (by omega))
    (by omega)
  · unfold aswap
    rw [take_set_of_le _ _ _ _ (by omega), take_set_of_le _ _ _ _ (by omega)]
  · unfold aswap
    rw [drop_set_of_lt _ _ _ _ (by omega), drop_set_of_lt _ _ _ _ (by omega)]

theorem getD_of_take_eq {arr arr' : List ℕ} {pl : ℕ}
    (h : arr'.take pl = arr.take pl) (t : ℕ) (ht : t < pl) :
    arr'.getD t 0 = arr.getD t 0 := by
  have h1 : (arr'.take pl)[t]? = (arr.take pl)[t]? := by rw [h]
  rw [List.getElem?_take, List.getElem?_take, if_pos ht, if_pos ht] at h1
  rw [List.getD_eq_getElem?_getD, List.getD_eq_getElem?_getD, h1]

theorem getD_of_drop_eq {arr arr' : List ℕ} {pr : ℕ}
    (h : arr'.drop (pr + 1) = arr.drop (pr + 1)) (t : ℕ) (ht : pr < t) :
    arr'.getD t 0 = arr.getD t 0 := by
  have h1 : (arr'.drop (pr + 1))[t - (pr + 1)]? = (arr.drop (pr + 1))[t - (pr + 1)]? := by
    rw [h]
  rw [List.getElem?_drop, List.getElem?_drop] at h1
  have he : pr + 1 + (t - (pr + 1)) = t := by omega
  rw [he] at h1
  rw [List.getD_eq_getElem?_getD, List.getD_eq_getElem?_getD, h1]

theorem SegOp.untouched {arr arr' : List ℕ} {pl pr : ℕ}
    (h : SegOp arr arr' pl pr) (t : ℕ) (ht : t < pl ∨ pr < t) :
    arr'.getD t 0 = arr.getD t 0 := by
  cases ht with
  | inl h1 => exact getD_of_take_eq h.2.1 t h1
  | inr h1 => exact getD_of_drop_eq h.2.2.1 t h1

theorem getD_mem_seg (arr : List ℕ) (pl pr t : ℕ)
    (h1 : pl ≤ t) (h2 : t ≤ pr) (h3 : t < arr.length) :
    arr.getD t 0 ∈ seg arr pl pr := by
  have hsome : (seg arr pl pr)[t - pl]? = some (arr.getD t 0) := by
    unfold seg
    rw [List.getElem?_take, if_pos (by omega), List.getElem?_drop]
    have he : pl + (t - pl) = t := by omega
    rw [he, List.getElem?_eq_getElem h3, List.getD_eq_getElem?_getD,
      List.getElem?_eq_getElem h3]
    rfl
  exact List.getElem?_mem hsome

theorem seg_forall {arr : List ℕ} {pl pr : ℕ} {P : ℕ → Prop}
    (h : ∀ x ∈ seg arr pl pr, P x) (t : ℕ) (h1 : pl ≤ t) (h2 : t ≤ pr)
    (h3 : t < arr.length) : P (arr.getD t 0) :=
  h _ (getD_mem_seg arr pl pr t h1 h2 h3)

theorem forall_seg {arr : List ℕ} {pl pr : ℕ} {P : ℕ → Prop}
    (h : ∀ t, pl ≤ t → t ≤ pr → P (arr.getD t 0)) :
    ∀ x ∈ seg arr pl pr, P x := by
  intro x hx
  rw [List.mem_iff_getElem] at hx
  obtain ⟨u, hu, rfl⟩ := hx
  have hu' := hu
  unfold seg at hu'
  rw [List.length_take, List.length_drop] at hu'
  have hu2 : u < pr + 1 - pl := by omega
  have hud : u < (arr.drop pl).length := by
    rw [List.length_drop]
    omega
  have hx2 : (seg arr pl pr)[u] = arr.getD (pl + u) 0 := by
    unfold seg
    rw [List.getElem_take, List.getElem_drop]
    rw [List.getD_eq_getElem?_getD, List.getElem?_eq_getElem (by
      rw [List.length_drop] at hud
      omega)]
    rfl
  rw [hx2]
  exact h (pl + u) (by omega) (by omega)

theorem SegOp.mono {arr arr' : List ℕ} {pl' pr' pl pr : ℕ} (h : SegOp arr arr' pl' pr')
    (h1 : pl ≤ pl') (h2 : pr' ≤ pr) (h3 : pl' ≤ pr' + 1) : SegOp arr arr' pl pr := by
  refine SegOp.of_parts h.1 ?_ ?_ (h.whole_perm h3) (by omega)
  · have ht := congrArg (List.take pl) h.2.1
    rwa [List.take_take, List.take_take, min_eq_left h1] at ht
  · have hd := congrArg (List.drop (pr - pr')) h.2.2.1
    rw [List.drop_drop, List.drop_drop] at hd
    have he : pr' + 1 + (pr - pr') = pr + 1 := by omega
    rwa [he] at hd

theorem scanUp_spec (v : List ℚ) (arr : List ℕ) (vp : ℚ) :
    ∀ (fuel i s : ℕ), i < s → s ≤ i + fuel → ¬ val v (arr.getD s 0) < vp →
    i < scanUp v arr vp i fuel ∧ scanUp v arr vp i fuel ≤ s ∧
    ¬ val v (arr.getD (scanUp v arr vp i fuel) 0) < vp ∧
    ∀ t, i < t → t < scanUp v arr vp i fuel → val v (arr.getD t 0) < vp := by
  intro fuel
  induction fuel with
  | zero =>
    intro i s hs1 hs2 _
    omega
  | succ fuel ih =>
    intro i s hs1 hs2 hstop
    rw [scanUp]
    by_cases hc : val v (arr.getD (i + 1) 0) < vp
    · rw [if_pos hc]
      have hne : i + 1 ≠ s := by
        intro he
        rw [← he] at hstop
        exact hstop hc
      obtain ⟨a1, a2, a3, a4⟩ := ih (i + 1) s (by omega) (by omega) hstop
      refine ⟨by omega, a2, a3, ?_⟩
      intro t ht1 ht2
      by_cases hti : t = i + 1
      · rw [hti]
        exact hc
      · exact a4 t (by omega) ht2
    · rw [if_neg hc]
      exact ⟨by omega, by omega, hc, by omega⟩

theorem scanDown_spec (v : List ℚ) (arr : List ℕ) (vp : ℚ) :
    ∀ (fuel j s : ℕ), s < j → j ≤ s + fuel → ¬ vp < val v (arr.getD s 0) →
    scanDown v arr vp j fuel < j ∧ s ≤ scanDown v arr vp j fuel ∧
    ¬ vp < val v (arr.getD (scanDown v arr vp j fuel) 0) ∧
    ∀ t, scanDown v arr vp j fuel < t → t < j → vp < val v (arr.getD t 0) := by
  intro fuel
  induction fuel with
  | zero =>
    intro j s hs1 hs2 _
    omega
  | succ fuel ih =>
    intro j s hs1 hs2 hstop
    rw [scanDown]
    by_cases hc : vp < val v (arr.getD (j - 1) 0)
    · rw [if_pos hc]
      have hne : j - 1 ≠ s := by
        intro he
        rw [← he] at hstop
        exact hstop hc
      obtain ⟨a1, a2, a3, a4⟩ := ih (j - 1) s (by omega) (by omega) hstop
      refine ⟨by omega, a2, a3, ?_⟩
      intro t ht1 ht2
      by_cases htj : t = j - 1
      · rw [htj]
        exact hc
      · exact a4 t ht1 (by omega)
    · rw [if_neg hc]
      exact ⟨by omega, by omega, hc, by omega⟩

theorem partLoop_spec (v : List ℚ) (vp : ℚ) (pl pr : ℕ) :
    ∀ (fuel : ℕ) (arr : List ℕ) (pi pj : ℕ),
    pr < arr.length → pl ≤ pi → pi < pj → pj ≤ pr - 1 → pl + 1 < pr →
    pj - pi ≤ 2 * fuel →
    (∀ t, pl ≤ t → t ≤ pi → val v (arr.getD t 0) ≤ vp) →
    (∀ t, pj ≤ t → t ≤ pr - 1 → vp ≤ val v (arr.getD t 0)) →
    SegOp arr (partLoop v vp arr pi pj fuel).1 pl (pr - 1) ∧
    pl < (partLoop v vp arr pi pj fuel).2 ∧ (partLoop v vp arr pi pj fuel).2 ≤ pr - 1 ∧
    (∀ t, pl ≤ t → t < (partLoop v vp arr pi pj fuel).2 →
      val v ((partLoop v vp arr pi pj fuel).1.getD t 0) ≤ vp) ∧
    (∀ t, (partLoop v vp arr pi pj fuel).2 ≤ t → t ≤ pr - 1 →
      vp ≤ val v ((partLoop v vp arr pi pj fuel).1.getD t 0)) ∧
    (partLoop v vp arr pi pj fuel).1.getD (pr - 1) 0 = arr.getD (pr - 1) 0 := by
  intro fuel
  induction fuel with
  | zero =>
    intro arr pi pj _ _ h2 _ _ hfuel _ _
    omega
  | succ fuel ih =>
    intro arr pi pj hlen h1 h2 h3 h4 hfuel hA hB
    obtain ⟨u1, u2, u3, u4⟩ := scanUp_spec v arr vp arr.length pi pj h2 (by omega)
      (not_lt.mpr (hB pj (le_refl _) h3))
    obtain ⟨d1, d2, d3, d4⟩ := scanDown_spec v arr vp arr.length pj pl (by omega) (by omega)
      (not_lt.mpr (hA pl (le_refl _) h1))
    by_cases hbr : scanDown v arr vp pj arr.length ≤ scanUp v arr vp pi arr.length
    · have heq : partLoop v vp arr pi pj (fuel + 1)
          = (arr, scanUp v arr vp pi arr.length) := by
        simp only [partLoop, if_pos hbr]
      rw [heq]
      refine ⟨SegOp.rfl' .., by omega, by omega, ?_, ?_, rfl⟩
      · intro t ht1 ht2
        by_cases htp : t ≤ pi
        · exact hA t ht1 htp
        · exact le_of_lt (u4 t (by omega) ht2)
      · intro t ht1 ht2
        by_cases hte : t = scanUp v arr vp pi arr.length
        · rw [hte]
          exact le_of_not_lt u3
        · by_cases htj : pj ≤ t
          · exact hB t htj ht2
          · exact le_of_lt (d4 t (by omega) (by omega))
    · push_neg at hbr
      have heq : partLoop v vp arr pi pj (fuel + 1)
          = partLoop v vp
            (aswap arr (scanUp v arr vp pi arr.length) (scanDown v arr vp pj arr.length))
            (scanUp v arr vp pi arr.length) (scanDown v arr vp pj arr.length) fuel := by
        simp only [partLoop, if_neg (not_le.mpr hbr)]
      rw [heq]
      have hlen2 : pr < (aswap arr (scanUp v arr vp pi arr.length)
          (scanDown v arr vp pj arr.length)).length := by
        rw [length_aswap]
        exact hlen
      have hup_lt : scanUp v arr vp pi arr.length < arr.length := by omega
      have hdn_lt : scanDown v arr vp pj arr.length < arr.length := by omega
      have hA2 : ∀ t, pl ≤ t → t ≤ scanUp v arr vp pi arr.length →
          val v ((aswap arr (scanUp v arr vp pi arr.length)
            (scanDown v arr vp pj arr.length)).getD t 0) ≤ vp := by
        intro t ht1 ht2
        by_cases hte : t = scanUp v arr vp pi arr.length
        · rw [hte, getD_aswap_fst _ _ _ hup_lt]
          exact le_of_not_lt d3
        · rw [getD_aswap_other _ _ _ _ hte (by omega)]
          by_cases htp : t ≤ pi
          · exact hA t ht1 htp
          · exact le_of_lt (u4 t (by omega) (by omega))
      have hB2 : ∀ t, scanDown v arr vp pj arr.length ≤ t → t ≤ pr - 1 →
          vp ≤ val v ((aswap arr (scanUp v arr vp pi arr.length)
            (scanDown v arr vp pj arr.length)).getD t 0) := by
        intro t ht1 ht2
        by_cases hte : t = scanDown v arr vp pj arr.length
        · rw [hte, getD_aswap_snd _ _ _ hdn_lt]
          exact le_of_not_lt u3
        · rw [getD_aswap_other _ _ _ _ (by omega) hte]
          by_cases htj : pj ≤ t
          · exact hB t htj ht2
          · exact le_of_lt (d4 t (by omega) (by omega))
      obtain ⟨s1, s2, s3, s4, s5, s6⟩ := ih
        (aswap arr (scanUp v arr vp pi arr.length) (scanDown v arr vp pj arr.length))
        (scanUp v arr vp pi arr.length) (scanDown v arr vp pj arr.length)
        hlen2 (by omega) hbr (by omega) h4 (by omega) hA2 hB2
      have hsw : SegOp arr (aswap arr (scanUp v arr vp pi arr.length)
          (scanDown v arr vp pj arr.length)) pl (pr - 1) :=
        aswap_SegOp arr _ _ pl (pr - 1) (by omega) (by omega) (by omega) (by omega)
          (by omega)
      refine ⟨SegOp.trans' hsw s1, s2, s3, s4, s5, ?_⟩
      rw [s6, getD_aswap_other _ _ _ _ (by omega) (by omega)]

theorem condSwap_post (v : List ℚ) (a : List ℕ) (x y : ℕ)
    (hx : x < a.length) (hy : y < a.length) :
    val v ((if val v (a.getD x 0) < val v (a.getD y 0) then aswap a x y else a).getD y 0)
      ≤ val v ((if val v (a.getD x 0) < val v (a.getD y 0) then aswap a x y else a).getD x 0) := by
  by_cases hc : val v (a.getD x 0) < val v (a.getD y 0)
  · rw [if_pos hc, getD_aswap_fst _ _ _ hx, getD_aswap_snd _ _ _ hy]
    exact le_of_lt hc
  · rw [if_neg hc]
    exact le_of_not_lt hc

theorem condSwap_other (v : List ℚ) (a : List ℕ) (x y t : ℕ) (h1 : t ≠ x) (h2 : t ≠ y) :
    (if val v (a.getD x 0) < val v (a.getD y 0) then aswap a x y else a).getD t 0
      = a.getD t 0 := by
  split
  · exact getD_aswap_other a x y t h1 h2
  · rfl

theorem condSwap_SegOp (v : List ℚ) (a : List ℕ) (x y pl pr : ℕ)
    (hx1 : pl ≤ x) (hx2 : x ≤ pr) (hy1 : pl ≤ y) (hy2 : y ≤ pr) (hlen : pr < a.length) :
    SegOp a (if val v (a.getD x 0) < val v (a.getD y 0) then aswap a x y else a) pl pr := by
  split
  · exact aswap_SegOp a x y pl pr hx1 hx2 hy1 hy2 hlen
  · exact SegOp.rfl' ..

theorem condSwap_length (v : List ℚ) (a : List ℕ) (x y : ℕ) :
    (if val v (a.getD x 0) < val v (a.getD y 0) then aswap a x y else a).length
      = a.length := by
  split
  · exact length_aswap ..
  · rfl

theorem med3_spec (v : List ℚ) (arr : List ℕ) (pl pr : ℕ)
    (hp : pl + 15 < pr) (hlen : pr < arr.length) :
    SegOp arr (med3 v arr pl pr) pl pr ∧
    val v ((med3 v arr pl pr).getD pl 0)
      ≤ val v ((med3 v arr pl pr).getD (pl + (pr - pl) / 2) 0) ∧
    val v ((med3 v arr pl pr).getD (pl + (pr - pl) / 2) 0)
      ≤ val v ((med3 v arr pl pr).getD pr 0) := by
  have hpm1 : pl < pl + (pr - pl) / 2 := by omega
  have hpm2 : pl + (pr - pl) / 2 < pr := by omega
  set pm := pl + (pr - pl) / 2 with hpmdef
  set a1 := if val v (arr.getD pm 0) < val v (arr.getD pl 0) then aswap arr pm pl else arr
    with ha1
  set a2 := if val v (a1.getD pr 0) < val v (a1.getD pm 0) then aswap a1 pr pm else a1
    with ha2
  set a3 := if val v (a2.getD pm 0) < val v (a2.getD pl 0) then aswap a2 pm pl else a2
    with ha3
  have hmed : med3 v arr pl pr = a3 := by
    rw [ha3, ha2, ha1]
    rfl
  have hl1 : a1.length = arr.length := condSwap_length ..
  have hl2 : a2.length = a1.length := condSwap_length ..
  have s1 : SegOp arr a1 pl pr :=
    condSwap_SegOp v arr pm pl pl pr (by omega) (by omega) (by omega) (by omega) hlen
  have s2 : SegOp a1 a2 pl pr :=
    condSwap_SegOp v a1 pr pm pl pr (by omega) (by omega) (by omega) (by omega)
      (by omega)
  have s3 : SegOp a2 a3 pl pr :=
    condSwap_SegOp v a2 pm pl pl pr (by omega) (by omega) (by omega) (by omega)
      (by omega)
  have f1 : val v (a1.getD pl 0) ≤ val v (a1.getD pm 0) :=
    condSwap_post v arr pm pl (by omega) (by omega)
  have f2 : val v (a2.getD pm 0) ≤ val v (a2.getD pr 0) :=
    condSwap_post v a1 pr pm (by omega) (by omega)
  have f3 : val v (a3.getD pl 0) ≤ val v (a3.getD pm 0) :=
    condSwap_post v a2 pm pl (by omega) (by omega)
  have u2 : a2.getD pl 0 = a1.getD pl 0 :=
    condSwap_other v a1 pr pm pl (by omega) (by omega)
  have u3 : a3.getD pr 0 = a2.getD pr 0 :=
    condSwap_other v a2 pm pl pr (by omega) (by omega)
  rw [hmed]
  refine ⟨SegOp.trans' (SegOp.trans' s1 s2) s3, f3, ?_⟩
  rw [u3]
  by_cases c3 : val v (a2.getD pm 0) < val v (a2.getD pl 0)
  · have h3pm : a3.getD pm 0 = a2.getD pl 0 := by
      rw [ha3, if_pos c3]
      exact getD_aswap_fst a2 pm pl (by omega)
    rw [h3pm]
    by_cases c2 : val v (a1.getD pr 0) < val v (a1.getD pm 0)
    · have h2pr : a2.getD pr 0 = a1.getD pm 0 := by
        rw [ha2, if_pos c2]
        exact getD_aswap_fst a1 pr pm (by omega)
      rw [h2pr, u2]
      exact f1
    · have h2eq : a2 = a1 := by
        rw [ha2, if_neg c2]
      rw [h2eq] at c3
      exact absurd f1 (not_le.mpr c3)
  · have h3eq : a3 = a2 := by
      rw [ha3, if_neg c3]
    rw [h3eq]
    exact f2

theorem partitionStep_spec (v : List ℚ) (arr : List ℕ) (pl pr : ℕ)
    (hp : pl + 15 < pr) (hlen : pr < arr.length) :
    SegOp arr (partitionStep v arr pl pr).1 pl pr ∧
    pl < (partitionStep v arr pl pr).2 ∧ (partitionStep v arr pl pr).2 < pr ∧
    (∀ t, pl ≤ t → t < (partitionStep v arr pl pr).2 →
      val v ((partitionStep v arr pl pr).1.getD t 0)
        ≤ val v ((partitionStep v arr pl pr).1.getD (partitionStep v arr pl pr).2 0)) ∧
    (∀ t, (partitionStep v arr pl pr).2 < t → t ≤ pr →
      val v ((partitionStep v arr pl pr).1.getD (partitionStep v arr pl pr).2 0)
        ≤ val v ((partitionStep v arr pl pr).1.getD t 0)) := by
  simp only [partitionStep]
  obtain ⟨m1, m2, m3⟩ := med3_spec v arr pl pr hp hlen
  set a := med3 v arr pl pr with ha
  have halen : a.length = arr.length := m1.1
  set pm := pl + (pr - pl) / 2 with hpm
  have hpm1 : pl < pm := by
    rw [hpm]
    omega
  have hpm2 : pm < pr := by
    rw [hpm]
    omega
  set vp := val v (a.getD pm 0) with hvp
  set a1 := aswap a pm (pr - 1) with ha1
  have hlen1 : a1.length = arr.length := by
    rw [ha1, length_aswap]
    exact halen
  have hv1 : val v (a1.getD (pr - 1) 0) = vp := by
    rw [ha1, getD_aswap_snd _ _ _ (by omega)]
  have hv2 : val v (a1.getD pl 0) ≤ vp := by
    rw [ha1, getD_aswap_other _ _ _ _ (by omega) (by omega)]
    exact m2
  have hv3 : vp ≤ val v (a1.getD pr 0) := by
    rw [ha1, getD_aswap_other _ _ _ _ (by omega) (by omega)]
    exact m3
  have s1 : SegOp a a1 pl (pr - 1) := by
    rw [ha1]
    exact aswap_SegOp a pm (pr - 1) pl (pr - 1) (by omega) (by omega) (by omega)
      (by omega) (by omega)
  obtain ⟨p1, p2, p3, p4, p5, p6⟩ := partLoop_spec v vp pl pr (pr - pl) a1 pl (pr - 1)
    (by omega) (le_refl pl) (by omega) (le_refl _) (by omega) (by omega)
    (by
      intro t h1 h2
      have ht : t = pl := by omega
      rw [ht]
      exact hv2)
    (by
      intro t h1 h2
      have ht : t = pr - 1 := by omega
      rw [ht, hv1])
  set res1 := (partLoop v vp a1 pl (pr - 1) (pr - pl)).1 with hres1
  set pi := (partLoop v vp a1 pl (pr - 1) (pr - pl)).2 with hpi
  have hr1len : res1.length = arr.length := p1.1.trans hlen1
  have hpilen : pi < res1.length := by omega
  have hprlen : pr - 1 < res1.length := by omega
  have hApi : val v ((aswap res1 pi (pr - 1)).getD pi 0) = vp := by
    rw [getD_aswap_fst _ _ _ hpilen, p6, hv1]
  refine ⟨?_, by omega, by omega, ?_, ?_⟩
  · have s2 : SegOp res1 (aswap res1 pi (pr - 1)) pl (pr - 1) :=
      aswap_SegOp res1 pi (pr - 1) pl (pr - 1) (by omega) p3 (by omega) (le_refl _)
        hprlen
    exact SegOp.trans' m1 (SegOp.mono (SegOp.trans' (SegOp.trans' s1 p1) s2)
      (le_refl pl) (by omega) (by omega))
  · intro t ht1 ht2
    rw [hApi, getD_aswap_other _ _ _ _ (by omega) (by omega)]
    exact p4 t ht1 ht2
  · intro t ht1 ht2
    rw [hApi]
    by_cases hte : t = pr - 1
    · rw [hte, getD_aswap_snd _ _ _ hprlen]
      exact p5 pi (le_refl _) p3
    · by_cases htr : t = pr
      · rw [htr, getD_aswap_other _ _ _ _ (by omega) (by omega)]
        rw [SegOp.untouched p1 pr (by omega)]
        exact hv3
      · rw [getD_aswap_other _ _ _ _ (by omega) (by omega)]
        exact p5 t (by omega) (by omega)

theorem seg_getElem? (arr : List ℕ) (pl pr t : ℕ) (h1 : pl ≤ t) (h2 : t ≤ pr)
    (h3 : t < arr.length) : (seg arr pl pr)[t - pl]? = some (arr.getD t 0) := by
  unfold seg
  rw [List.getElem?_take, if_pos (by omega), List.getElem?_drop]
  have he : pl + (t - pl) = t := by omega
  rw [he, List.getElem?_eq_getElem h3, List.getD_eq_getElem?_getD,
    List.getElem?_eq_getElem h3]
  rfl

theorem getD_seg (arr : List ℕ) (pl pr t : ℕ) (h1 : pl ≤ t) (h2 : t ≤ pr)
    (h3 : t < arr.length) : arr.getD t 0 = (seg arr pl pr).getD (t - pl) 0 := by
  conv_rhs => rw [List.getD_eq_getElem?_getD, seg_getElem? arr pl pr t h1 h2 h3]
  rfl

theorem seg_length (arr : List ℕ) (pl pr : ℕ) (h1 : pl ≤ pr) (h2 : pr < arr.length) :
    (seg arr pl pr).length = pr + 1 - pl := by
  unfold seg
  rw [List.length_take, List.length_drop]
  omega

theorem insSortSeg_spec (v : List ℚ) (arr : List ℕ) (pl pr : ℕ)
    (hle : pl ≤ pr) (hlen : pr < arr.length) :
    SegOp arr (insSortSeg v arr pl pr) pl pr ∧
    ∀ t u, pl ≤ t → t ≤ u → u ≤ pr →
      val v ((insSortSeg v arr pl pr).getD t 0)
        ≤ val v ((insSortSeg v arr pl pr).getD u 0) := by
  have hSperm : (List.insertionSort (valLE v) (seg arr pl pr)).Perm (seg arr pl pr) :=
    List.perm_insertionSort _ _
  have hSlen : (List.insertionSort (valLE v) (seg arr pl pr)).length = pr + 1 - pl := by
    rw [hSperm.length_eq, seg_length arr pl pr hle hlen]
  have hA_len : (arr.take pl).length = pl := by
    rw [List.length_take]
    omega
  have hbody : insSortSeg v arr pl pr
      = arr.take pl ++ List.insertionSort (valLE v) (seg arr pl pr) ++ arr.drop (pr + 1) := by
    unfold insSortSeg seg
    rfl
  have hAS_len : (arr.take pl ++ List.insertionSort (valLE v) (seg arr pl pr)).length
      = pr + 1 := by
    rw [List.length_append, hA_len, hSlen]
    omega
  have hlen2 : (insSortSeg v arr pl pr).length = arr.length := by
    rw [hbody, List.length_append, hAS_len, List.length_drop]
    omega
  have htake2 : (insSortSeg v arr pl pr).take pl = arr.take pl := by
    rw [hbody, List.append_assoc, List.take_append_of_le_length (by rw [hA_len]),
      List.take_take, Nat.min_self]
  have hdrop2 : (insSortSeg v arr pl pr).drop (pr + 1) = arr.drop (pr + 1) := by
    rw [hbody, List.drop_left' hAS_len]
  have hseg : seg (insSortSeg v arr pl pr) pl pr
      = List.insertionSort (valLE v) (seg arr pl pr) := by
    show ((insSortSeg v arr pl pr).drop pl).take (pr + 1 - pl) = _
    rw [hbody, List.append_assoc, List.drop_left' hA_len,
      List.take_append_of_le_length (by rw [hSlen]), List.take_of_length_le (by rw [hSlen])]
  have hsegop : SegOp arr (insSortSeg v arr pl pr) pl pr := by
    refine ⟨hlen2, htake2, hdrop2, ?_⟩
    rw [hseg]
    exact hSperm
  refine ⟨hsegop, ?_⟩
  intro t u h1 h2 h3
  by_cases htu : t = u
  · rw [htu]
  · have hsorted : List.Sorted (valLE v) (List.insertionSort (valLE v) (seg arr pl pr)) :=
      List.sorted_insertionSort (valLE v) _
    have ht : (insSortSeg v arr pl pr).getD t 0
        = (seg (insSortSeg v arr pl pr) pl pr).getD (t - pl) 0 :=
      getD_seg _ pl pr t h1 (by omega) (by rw [hlen2]; omega)
    have hu : (insSortSeg v arr pl pr).getD u 0
        = (seg (insSortSeg v arr pl pr) pl pr).getD (u - pl) 0 :=
      getD_seg _ pl pr u (by omega) h3 (by rw [hlen2]; omega)
    rw [ht, hu, hseg]
    have hub : u - pl < (List.insertionSort (valLE v) (seg arr pl pr)).length := by
      rw [hSlen]
      omega
    have htb : t - pl < (List.insertionSort (valLE v) (seg arr pl pr)).length := by
      rw [hSlen]
      omega
    have hr := List.pairwise_iff_getElem.mp hsorted (t - pl) (u - pl) (by omega) hub
      (by omega)
    rw [getD_eq_getElem' _ _ htb, getD_eq_getElem' _ _ hub]
    exact hr

theorem qsortSeg_spec (v : List ℚ) :
    ∀ (fuel : ℕ) (arr : List ℕ) (pl pr : ℕ),
    pl ≤ pr → pr < arr.length → pr - pl < fuel →
    SegOp arr (qsortSeg v fuel arr pl pr) pl pr ∧
    ∀ t u, pl ≤ t → t ≤ u → u ≤ pr →
      val v ((qsortSeg v fuel arr pl pr).getD t 0)
        ≤ val v ((qsortSeg v fuel arr pl pr).getD u 0) := by
  intro fuel
  induction fuel with
  | zero =>
    intro arr pl pr h1 h2 h3
    omega
  | succ fuel ih =>
    intro arr pl pr hle hlen hfuel
    by_cases hbig : 15 < pr - pl
    · have heq : qsortSeg v (fuel + 1) arr pl pr
          = qsortSeg v fuel
            (qsortSeg v fuel (partitionStep v arr pl pr).1 pl ((partitionStep v arr pl pr).2 - 1))
            ((partitionStep v arr pl pr).2 + 1) pr := by
        simp only [qsortSeg, if_pos hbig]
      rw [heq]
      obtain ⟨q1, q2, q3, q4, q5⟩ := partitionStep_spec v arr pl pr (by omega) hlen
      set A := (partitionStep v arr pl pr).1 with hA
      set pi := (partitionStep v arr pl pr).2 with hpi
      have hAlen : A.length = arr.length := q1.1
      obtain ⟨l1, l2⟩ := ih A pl (pi - 1) (by omega) (by rw [hAlen]; omega) (by omega)
      set A1 := qsortSeg v fuel A pl (pi - 1) with hA1
      have hA1len : A1.length = arr.length := l1.1.trans hAlen
      obtain ⟨r1, r2⟩ := ih A1 (pi + 1) pr (by omega) (by rw [hA1len]; exact hlen)
        (by omega)
      set R := qsortSeg v fuel A1 (pi + 1) pr with hR
      have hRlen : R.length = arr.length := r1.1.trans hA1len
      have hpivA1 : A1.getD pi 0 = A.getD pi 0 := SegOp.untouched l1 pi (Or.inr (by omega))
      have hpivR : R.getD pi 0 = A1.getD pi 0 := SegOp.untouched r1 pi (Or.inl (by omega))
      have hlowA1 : ∀ t, pl ≤ t → t ≤ pi - 1 → val v (A1.getD t 0) ≤ val v (A.getD pi 0) := by
        intro t h1 h2
        have hall : ∀ x ∈ seg A pl (pi - 1), val v x ≤ val v (A.getD pi 0) :=
          forall_seg (fun s hs1 hs2 => q4 s hs1 (by omega))
        exact seg_forall (fun x hx => hall x (l1.2.2.2.subset hx)) t h1 h2
          (by rw [hA1len]; omega)
      have hlowR : ∀ t, pl ≤ t → t ≤ pi - 1 → val v (R.getD t 0) ≤ val v (A.getD pi 0) := by
        intro t h1 h2
        rw [SegOp.untouched r1 t (Or.inl (by omega))]
        exact hlowA1 t h1 h2
      have hhighA1 : ∀ t, pi + 1 ≤ t → t ≤ pr →
          val v (A.getD pi 0) ≤ val v (A1.getD t 0) := by
        intro t h1 h2
        rw [SegOp.untouched l1 t (Or.inr (by omega))]
        exact q5 t (by omega) h2
      have hhighR : ∀ t, pi + 1 ≤ t → t ≤ pr →
          val v (A.getD pi 0) ≤ val v (R.getD t 0) := by
        intro t h1 h2
        have hall : ∀ x ∈ seg A1 (pi + 1) pr, val v (A.getD pi 0) ≤ val v x :=
          forall_seg (fun s hs1 hs2 => hhighA1 s hs1 hs2)
        exact seg_forall (fun x hx => hall x (r1.2.2.2.subset hx)) t h1 h2
          (by rw [hRlen]; omega)
      have hsortlowR : ∀ t u, pl ≤ t → t ≤ u → u ≤ pi - 1 →
          val v (R.getD t 0) ≤ val v (R.getD u 0) := by
        intro t u h1 h2 h3
        rw [SegOp.untouched r1 t (Or.inl (by omega)),
          SegOp.untouched r1 u (Or.inl (by omega))]
        exact l2 t u h1 h2 h3
      refine ⟨SegOp.trans' q1 (SegOp.trans'
        (SegOp.mono l1 (le_refl pl) (by omega) (by omega))
        (SegOp.mono r1 (by omega) (le_refl pr) (by omega))), ?_⟩
      intro t u h1 h2 h3
      by_cases hu : u < pi
      · exact hsortlowR t u h1 h2 (by omega)
      · by_cases ht : t < pi
        · have htv : val v (R.getD t 0) ≤ val v (A.getD pi 0) := hlowR t h1 (by omega)
          by_cases hu2 : u = pi
          · rw [hu2, hpivR, hpivA1]
            exact htv
          · exact le_trans htv (hhighR u (by omega) h3)
        · by_cases ht2 : t = pi
          · by_cases hu2 : u = pi
            · rw [ht2, hu2]
            · rw [ht2, hpivR, hpivA1]
              exact hhighR u (by omega) h3
          · exact r2 t u (by omega) h2 h3
    · have heq : qsortSeg v (fuel + 1) arr pl pr = insSortSeg v arr pl pr := by
        simp only [qsortSeg, if_neg hbig]
      rw [heq]
      exact insSortSeg_spec v arr pl pr hle hlen

theorem npArgsort_spec (v : List ℚ) :
    (npArgsort v).Perm (List.range v.length) ∧
    (npArgsort v).length = v.length ∧
    ∀ t u, t ≤ u → u < v.length →
      v.getD ((npArgsort v).getD t 0) 0 ≤ v.getD ((npArgsort v).getD u 0) 0 := by
  by_cases hn : v.length = 0
  · have he : npArgsort v = List.range v.length := by
      unfold npArgsort
      rw [hn]
      rfl
    rw [he]
    exact ⟨List.Perm.refl _, by rw [List.length_range], by omega⟩
  · obtain ⟨s1, s2⟩ := qsortSeg_spec v v.length (List.range v.length) 0 (v.length - 1)
      (by omega) (by rw [List.length_range]; omega) (by omega)
    have hperm : (npArgsort v).Perm (List.range v.length) :=
      SegOp.whole_perm s1 (by omega)
    refine ⟨hperm, by rw [hperm.length_eq, List.length_range], ?_⟩
    intro t u h1 h2
    exact s2 t u (by omega) h1 (by omega)

theorem perm_range_getD_lt {idx : List ℕ} {n : ℕ} (h : idx.Perm (List.range n))
    (t : ℕ) (ht : t < idx.length) : idx.getD t 0 < n :=
  List.mem_range.mp (h.subset (getD_mem idx t 0 ht))

theorem map_getD_range {α} (l : List α) (d : α) :
    (List.range l.length).map (fun i => l.getD i d) = l := by
  apply List.ext_getElem
  · rw [List.length_map, List.length_range]
  · intro i h1 h2
    rw [List.getElem_map, List.getElem_range, List.getD_eq_getElem?_getD,
      List.getElem?_eq_getElem h2]
    rfl

theorem range_map_pair (e : List ℚ) (v : List (List CQ)) (h : v.length = e.length) :
    (List.range e.length).map (fun i => (e.getD i 0, v.getD i [])) = e.zip v := by
  apply List.ext_getElem
  · rw [List.length_map, List.length_range, List.length_zip]
    omega
  · intro i h1 h2
    have hi : i < e.length := by
      rw [List.length_zip] at h2
      omega
    rw [List.getElem_map, List.getElem_range, List.getElem_zip,
      List.getD_eq_getElem?_getD, List.getElem?_eq_getElem hi,
      List.getD_eq_getElem?_getD, List.getElem?_eq_getElem (by omega : i < v.length)]
    rfl

theorem sortIdx_perm (es : EigenSystem) (b : Bool) :
    (sortIdx es b).Perm (List.range es.e.length) := by
  cases b with
  | true => exact (npArgsort_spec es.e).1
  | false =>
    have h := (npArgsort_spec (es.e.map (fun x => -x))).1
    rwa [List.length_map] at h

/-!
### Claim C1: what `EigenSystem.sort` guarantees

`sort` applies the permutation `np.argsort(e)` (resp. `np.argsort(-e)`)
identically to `e` and to the rows of `v`.  The claim additionally asserts
*stability* — but numpy's default `argsort` kind is quicksort, which is
only stable while the array is small enough (≤ 16 entries) to be handled
by its insertion sort; the partition swaps reorder equal elements.
-/

/-- The applied index permutation keeps equal-eigenvalue pairs in their
original relative order (what a *stable* argsort guarantees). -/
def argsortStable (e : List ℚ) (idx : List ℕ) : Prop :=
  ∀ p q, p < q → q < idx.length →
    e.getD (idx.getD p 0) 0 = e.getD (idx.getD q 0) 0 →
    idx.getD p 0 < idx.getD q 0

/-- Claim C1, formalized at one system and one flag value: the sorted
eigenvalues are monotone (ascending for `True`, descending otherwise), the
multiset of (eigenvalue, eigenvector-row) pairs is preserved, and the
permutation the code applies is stable. -/
def C1Statement (es : EigenSystem) (ascending : Bool) : Prop :=
  (ascending = true → List.Sorted (· ≤ ·) (es.sort ascending).e) ∧
  (ascending = false → List.Sorted (· ≥ ·) (es.sort ascending).e) ∧
  ((es.sort ascending).e.zip (es.sort ascending).v).Perm (es.e.zip es.v) ∧
  argsortStable es.e (sortIdx es ascending)

/-- **C1 (counterexample).** On 17 equal eigenvalues numpy's default
quicksort leaves the insertion-sort regime (`SMALL_QUICKSORT = 15`) and
its partition swaps reorder equal elements:
`np.argsort([1.]*17) = [0, 14, 13, …]` places original index 14 before 13,
so equal-eigenvalue pairs do *not* keep their original relative order and
the claim fails at this input. -/
theorem eigensystem_sort_not_stable :
    ¬ C1Statement ⟨List.replicate 17 1, (List.range 17).map (fun i => [⟨(i : ℚ), 0⟩]), 0⟩
      true := by
  intro h
  have hst := h.2.2.2
  have h1 : sortIdx ⟨List.replicate 17 1, (List.range 17).map (fun i => [⟨(i : ℚ), 0⟩]), 0⟩
      true = npArgsort (List.replicate 17 1) := rfl
  rw [h1] at hst
  have h2 := hst 1 2 (by omega) (by decide) (by decide)
  exact absurd h2 (by decide)

/-- **C1 (amended).** For every `EigenSystem`, `sort(ascending)` sorts the
eigenvalues by value — ascending for `ascending=True`, descending
otherwise — applying the identical `np.argsort` permutation to the
eigenvector rows, so after sorting every (eigenvalue, eigenvector) pair of
the original is still present; the applied permutation is numpy's default
(quicksort) `argsort`, which does **not** guarantee the relative order of
pairs with equal eigenvalues. -/
theorem eigensystem_sort_sorted_pairs (es : EigenSystem) (b : Bool)
    (hwf : es.v.length = es.e.length) :
    (sortIdx es b).Perm (List.range es.e.length) ∧
    (es.sort b).e = (sortIdx es b).map (fun i => es.e.getD i 0) ∧
    (es.sort b).v = (sortIdx es b).map (fun i => es.v.getD i []) ∧
    ((es.sort b).e.zip (es.sort b).v).Perm (es.e.zip es.v) ∧
    (b = true → List.Sorted (· ≤ ·) (es.sort b).e) ∧
    (b = false → List.Sorted (· ≥ ·) (es.sort b).e) := by
  have hperm := sortIdx_perm es b
  have hlen : (sortIdx es b).length = es.e.length := by
    rw [hperm.length_eq, List.length_range]
  refine ⟨hperm, rfl, rfl, ?_, ?_, ?_⟩
  · show ((sortIdx es b).map _).zip ((sortIdx es b).map _) |>.Perm _
    rw [List.zip_map']
    have h2 := hperm.map (fun i => (es.e.getD i 0, es.v.getD i []))
    rwa [range_map_pair es.e es.v hwf] at h2
  · intro hb
    subst hb
    show List.Sorted _ ((sortIdx es true).map _)
    rw [List.Sorted, List.pairwise_map]
    rw [List.pairwise_iff_getElem]
    intro p q hp hq hpq
    have h3 := (npArgsort_spec es.e).2.2 p q (by omega) (by omega)
    have h4 : sortIdx es true = npArgsort es.e := rfl
    have he1 : (sortIdx es true)[p] = (sortIdx es true).getD p 0 :=
      (getD_eq_getElem' _ _ hp).symm
    have he2 : (sortIdx es true)[q] = (sortIdx es true).getD q 0 :=
      (getD_eq_getElem' _ _ hq).symm
    rw [he1, he2, h4]
    exact h3
  · intro hb
    subst hb
    show List.Sorted _ ((sortIdx es false).map _)
    rw [List.Sorted, List.pairwise_map]
    rw [List.pairwise_iff_getElem]
    intro p q hp hq hpq
    have h4 : sortIdx es false = npArgsort (es.e.map (fun x => -x)) := rfl
    have hq' : q < (es.e.map (fun x => -x)).length := by
      rw [List.length_map]
      rw [hlen] at hq
      exact hq
    have h3 := (npArgsort_spec (es.e.map (fun x => -x))).2.2 p q (by omega) hq'
    have hip : (npArgsort (es.e.map (fun x => -x))).getD p 0 < es.e.length := by
      have := perm_range_getD_lt (npArgsort_spec (es.e.map (fun x => -x))).1 p
        (by rw [← h4]; omega)
      rwa [List.length_map] at this
    have hiq : (npArgsort (es.e.map (fun x => -x))).getD q 0 < es.e.length := by
      have := perm_range_getD_lt (npArgsort_spec (es.e.map (fun x => -x))).1 q
        (by rw [← h4]; omega)
      rwa [List.length_map] at this
    rw [getD_map' _ _ _ 0 0 hip, getD_map' _ _ _ 0 0 hiq, neg_le_neg_iff] at h3
    have he1 : (sortIdx es false)[p] = (sortIdx es false).getD p 0 :=
      (getD_eq_getElem' _ _ hp).symm
    have he2 : (sortIdx es false)[q] = (sortIdx es false).getD q 0 :=
      (getD_eq_getElem' _ _ hq).symm
    rw [he1, he2, h4]
    exact h3

theorem eigensystem_sort_sorted_pairs_witness :
    (sortIdx ⟨[2, 1], [[⟨1, 0⟩], [⟨2, 0⟩]], 0⟩ true).Perm (List.range 2) ∧
    List.Sorted (· ≤ ·) ((⟨[2, 1], [[⟨1, 0⟩], [⟨2, 0⟩]], 0⟩ : EigenSystem).sort true).e := by
  have h := eigensystem_sort_sorted_pairs ⟨[2, 1], [[⟨1, 0⟩], [⟨2, 0⟩]], 0⟩ true rfl
  exact ⟨h.1, h.2.2.2.2.1 rfl⟩

/-! ### Shared consequences of the verified `argsort` for `sort` -/

theorem sort_e_perm (es : EigenSystem) (b : Bool) : (es.sort b).e.Perm es.e := by
  have h2 := (sortIdx_perm es b).map (fun i => es.e.getD i 0)
  rw [map_getD_range] at h2
  exact h2

theorem sort_v_perm (es : EigenSystem) (b : Bool) (hwf : es.v.length = es.e.length) :
    (es.sort b).v.Perm es.v := by
  have h2 := (sortIdx_perm es b).map (fun i => es.v.getD i [])
  rw [← hwf, map_getD_range] at h2
  exact h2

theorem sort_e_sorted_asc (es : EigenSystem) :
    List.Sorted (· ≤ ·) (es.sort true).e := by
  have hlen : (sortIdx es true).length = es.e.length := by
    rw [(sortIdx_perm es true).length_eq, List.length_range]
  show List.Sorted _ ((sortIdx es true).map _)
  rw [List.Sorted, List.pairwise_map, List.pairwise_iff_getElem]
  intro p q hp hq hpq
  have h3 := (npArgsort_spec es.e).2.2 p q (by omega) (by omega)
  have h4 : sortIdx es true = npArgsort es.e := rfl
  have he1 : (sortIdx es true)[p] = (sortIdx es true).getD p 0 :=
    (getD_eq_getElem' _ _ hp).symm
  have he2 : (sortIdx es true)[q] = (sortIdx es true).getD q 0 :=
    (getD_eq_getElem' _ _ hq).symm
  rw [he1, he2, h4]
  exact h3

theorem sort_e_sorted_desc (es : EigenSystem) :
    List.Sorted (· ≥ ·) (es.sort false).e := by
  have hlen : (sortIdx es false).length = es.e.length := by
    rw [(sortIdx_perm es false).length_eq, List.length_range]
  show List.Sorted _ ((sortIdx es false).map _)
  rw [List.Sorted, List.pairwise_map, List.pairwise_iff_getElem]
  intro p q hp hq hpq
  have h4 : sortIdx es false = npArgsort (es.e.map (fun x => -x)) := rfl
  have hq' : q < (es.e.map (fun x => -x)).length := by
    rw [List.length_map]
    omega
  have h3 := (npArgsort_spec (es.e.map (fun x => -x))).2.2 p q (by omega) hq'
  have hip : (npArgsort (es.e.map (fun x => -x))).getD p 0 < es.e.length := by
    have := perm_range_getD_lt (npArgsort_spec (es.e.map (fun x => -x))).1 p
      (by rw [← h4]; omega)
    rwa [List.length_map] at this
  have hiq : (npArgsort (es.e.map (fun x => -x))).getD q 0 < es.e.length := by
    have := perm_range_getD_lt (npArgsort_spec (es.e.map (fun x => -x))).1 q
      (by rw [← h4]; omega)
    rwa [List.length_map] at this
  rw [getD_map' _ _ _ 0 0 hip, getD_map' _ _ _ 0 0 hiq, neg_le_neg_iff] at h3
  have he1 : (sortIdx es false)[p] = (sortIdx es false).getD p 0 :=
    (getD_eq_getElem' _ _ hp).symm
  have he2 : (sortIdx es false)[q] = (sortIdx es false).getD q 0 :=
    (getD_eq_getElem' _ _ hq).symm
  rw [he1, he2, h4]
  exact h3

theorem sort_wf (d : ℕ) (es : EigenSystem) (b : Bool) (h : ESWF d es) :
    ESWF d (es.sort b) := by
  constructor
  · show ((sortIdx es b).map _).length = ((sortIdx es b).map _).length
    rw [List.length_map, List.length_map]
  · intro r hr
    have hr' : r ∈ (sortIdx es b).map (fun i => es.v.getD i []) := hr
    rw [List.mem_map] at hr'
    obtain ⟨i, hi, rfl⟩ := hr'
    have hilt : i < es.e.length := List.mem_range.mp ((sortIdx_perm es b).subset hi)
    exact h.2 _ (getD_mem _ _ _ (by rw [h.1]; exact hilt))

/-- **C6.** For every well-formed non-empty `EigenSystem`,
`sort(ascending=True)` followed by `sort(ascending=False)` leaves the
eigenvalue sequence exactly reversed relative to its state after the first
call, and `sub([0, ..., len-1])` reproduces the original system (same
eigenvalues, eigenvectors and `info` dict). -/
theorem eigensystem_sort_reverse_sub_identity (es : EigenSystem)
    (hwf : es.v.length = es.e.length) (hne : 0 < es.e.length) :
    ((es.sort true).sort false).e = (es.sort true).e.reverse ∧
    es.sub (List.range es.len) = some es := by
  constructor
  · have hperm : ((es.sort true).sort false).e.Perm (es.sort true).e.reverse :=
      (sort_e_perm (es.sort true) false).trans (es.sort true).e.reverse_perm.symm
    have hrev : List.Sorted (· ≥ ·) (es.sort true).e.reverse := by
      rw [List.Sorted, List.pairwise_reverse]
      exact sort_e_sorted_asc es
    haveI : IsAntisymm ℚ (· ≥ ·) := ⟨fun a b h1 h2 => le_antisymm h2 h1⟩
    exact List.eq_of_perm_of_sorted hperm (sort_e_sorted_desc (es.sort true)) hrev
  · have hcond : List.range es.e.length ≠ [] ∧
        ∀ i ∈ List.range es.e.length, i < es.e.length := by
      constructor
      · simp only [ne_eq, List.range_eq_nil]
        omega
      · intro i hi
        exact List.mem_range.mp hi
    unfold EigenSystem.sub EigenSystem.len
    rw [if_pos hcond]
    have hv : (List.range es.e.length).map (fun i => es.v.getD i []) = es.v := by
      rw [← hwf]
      exact map_getD_range es.v []
    rw [map_getD_range es.e 0, hv]

theorem eigensystem_sort_reverse_sub_identity_witness :
    (((⟨[2, 1], [[⟨1, 0⟩], [⟨2, 0⟩]], 0⟩ : EigenSystem).sort true).sort false).e
        = ((⟨[2, 1], [[⟨1, 0⟩], [⟨2, 0⟩]], 0⟩ : EigenSystem).sort true).e.reverse ∧
    (⟨[2, 1], [[⟨1, 0⟩], [⟨2, 0⟩]], 0⟩ : EigenSystem).sub
        (List.range (⟨[2, 1], [[⟨1, 0⟩], [⟨2, 0⟩]], 0⟩ : EigenSystem).len)
      = some ⟨[2, 1], [[⟨1, 0⟩], [⟨2, 0⟩]], 0⟩ :=
  eigensystem_sort_reverse_sub_identity ⟨[2, 1], [[⟨1, 0⟩], [⟨2, 0⟩]], 0⟩ rfl
    (by decide)

/-- **C7.** The shape invariant `len(e) = number of eigenvector rows`
(each row of length `d`, i.e. `v` has shape `(len(e), size)`) holds for
every `EigenSystem` produced by construction (`__init__`, with
`d = len(v_flat) / len(e)` from the reshape), `copy`, `sort`, `sub`,
`__getitem__`, and element iteration (`__iter__`). -/
theorem eigensystem_shape_invariant (d : ℕ) :
    (∀ e vflat fid es, EigenSystem.init e vflat fid = some es →
        ESWF (vflat.length / e.length) es) ∧
    (∀ es : EigenSystem, ESWF d es → ESWF d es.copy) ∧
    (∀ (es : EigenSystem) (b : Bool), ESWF d es → ESWF d (es.sort b)) ∧
    (∀ (es : EigenSystem) (idx : List ℕ) (es' : EigenSystem),
        ESWF d es → es.sub idx = some es' → ESWF d es') ∧
    (∀ (es : EigenSystem) (idx : List ℕ) (es' : EigenSystem),
        ESWF d es → es.getitem idx = some es' → ESWF d es') ∧
    (∀ es es' : EigenSystem, ESWF d es → es' ∈ es.elems → ESWF d es') :=
  ⟨fun e vflat fid es h => init_wf e vflat fid es h,
   fun es h => copy_wf d es h,
   fun es b h => sort_wf d es b h,
   fun es idx es' h hs => sub_wf d es idx es' h hs,
   fun es idx es' h hs => sub_wf d es idx es' h hs,
   fun es es' h hm => elems_wf d es es' h hm⟩

theorem eigensystem_shape_invariant_witness :
    ESWF 1 ((⟨[2, 1], [[⟨1, 0⟩], [⟨2, 0⟩]], 0⟩ : EigenSystem).sort true) :=
  (eigensystem_shape_invariant 1).2.2.1 ⟨[2, 1], [[⟨1, 0⟩], [⟨2, 0⟩]], 0⟩ true
    (by decide)
